/-
Verification of the address-geocoding pipeline for electoral polling-station
records (three Python scripts: `preparar_casillas_para_geocodificar - copia.py`,
`geocodificar_casillas.py` and `geocodificar_casillas_gto_v2.py`).

The scripts are shallowly embedded: text is `List Char` (wrapped in `String`
at the API), Python string operations (`upper`, `strip`, `replace`, `find`,
`split`/`join`, `re.search` for the three concrete patterns, `title`,
`unicodedata.normalize("NFD")` + mark filtering) are modelled by executable
Lean functions.  Unicode-dependent primitives (`upper`, `title`, NFD
decomposition, combining-mark category) use finite tables covering the
character repertoire that occurs in the scripts' data and literals
(ASCII plus the Latin-1 accented letters of Spanish); characters outside
the tables behave as the identity, matching the Python behaviour for every
character actually exercised here.  The geocoding capability is an opaque
function `String → LookupOutcome` which may return a coordinate, no match,
or raise; coordinates are abstracted as integer pairs because no claim
depends on their arithmetic.
-/
import Mathlib

set_option maxHeartbeats 1000000

namespace Geocod

/-! ### Character-level primitives -/

/-- Whitespace characters recognised by Python's `str.split`/`str.strip`/`\s`
(restricted to the ASCII repertoire occurring in the data). -/
def isWs (c : Char) : Bool :=
  c = ' ' || c = '\t' || c = '\n' || c = '\r' || c = '\x0b' || c = '\x0c'

/-- ASCII decimal digit, as matched by `\d` on this data. -/
def isDigitCh (c : Char) : Bool := '0' ≤ c && c ≤ '9'

/-- Uppercase table (ASCII letters plus the Spanish accented repertoire):
Python `str.upper` on the characters appearing in the scripts' data. -/
def upperTable : List (Char × Char) :=
  [('a', 'A'), ('b', 'B'), ('c', 'C'), ('d', 'D'), ('e', 'E'), ('f', 'F'),
   ('g', 'G'), ('h', 'H'), ('i', 'I'), ('j', 'J'), ('k', 'K'), ('l', 'L'),
   ('m', 'M'), ('n', 'N'), ('o', 'O'), ('p', 'P'), ('q', 'Q'), ('r', 'R'),
   ('s', 'S'), ('t', 'T'), ('u', 'U'), ('v', 'V'), ('w', 'W'), ('x', 'X'),
   ('y', 'Y'), ('z', 'Z'),
   ('á', 'Á'), ('é', 'É'), ('í', 'Í'), ('ó', 'Ó'), ('ú', 'Ú'), ('ü', 'Ü'),
   ('ñ', 'Ñ'), ('à', 'À'), ('è', 'È'), ('ì', 'Ì'), ('ò', 'Ò'), ('ù', 'Ù'),
   ('â', 'Â'), ('ê', 'Ê'), ('î', 'Î'), ('ô', 'Ô'), ('û', 'Û'), ('ç', 'Ç')]

/-- Python `str.upper`, character-wise, on the repertoire used here. -/
def pyUpperChar (c : Char) : Char := (upperTable.lookup c).getD c

/-- Lowercase table, inverse direction of `upperTable`. -/
def lowerTable : List (Char × Char) :=
  [('A', 'a'), ('B', 'b'), ('C', 'c'), ('D', 'd'), ('E', 'e'), ('F', 'f'),
   ('G', 'g'), ('H', 'h'), ('I', 'i'), ('J', 'j'), ('K', 'k'), ('L', 'l'),
   ('M', 'm'), ('N', 'n'), ('O', 'o'), ('P', 'p'), ('Q', 'q'), ('R', 'r'),
   ('S', 's'), ('T', 't'), ('U', 'u'), ('V', 'v'), ('W', 'w'), ('X', 'x'),
   ('Y', 'y'), ('Z', 'z'),
   ('Á', 'á'), ('É', 'é'), ('Í', 'í'), ('Ó', 'ó'), ('Ú', 'ú'), ('Ü', 'ü'),
   ('Ñ', 'ñ'), ('À', 'à'), ('È', 'è'), ('Ì', 'ì'), ('Ò', 'ò'), ('Ù', 'ù'),
   ('Â', 'â'), ('Ê', 'ê'), ('Î', 'î'), ('Ô', 'ô'), ('Û', 'û'), ('Ç', 'ç')]

/-- Python `str.lower`, character-wise, on the repertoire used here. -/
def pyLowerChar (c : Char) : Char := (lowerTable.lookup c).getD c

/-- A cased character (a letter) for the purposes of Python `str.title`,
on the repertoire used here. -/
def isCasedCh (c : Char) : Bool :=
  ('a' ≤ c && c ≤ 'z') || ('A' ≤ c && c ≤ 'Z') ||
  (upperTable.lookup c).isSome || (lowerTable.lookup c).isSome

/-- Combining marks (`unicodedata.category = "Mn"`): the combining
diacritical marks block U+0300–U+036F, which contains every mark produced
by NFD on this repertoire. -/
def isMn (c : Char) : Bool := 0x300 ≤ c.toNat && c.toNat ≤ 0x36F

/-- NFD decomposition table for the precomposed Latin letters of the
Spanish repertoire; every other character decomposes to itself. -/
def nfdTable : List (Char × List Char) :=
  [('á', ['a', '́']), ('é', ['e', '́']), ('í', ['i', '́']),
   ('ó', ['o', '́']), ('ú', ['u', '́']), ('ü', ['u', '̈']),
   ('ñ', ['n', '̃']), ('Á', ['A', '́']), ('É', ['E', '́']),
   ('Í', ['I', '́']), ('Ó', ['O', '́']), ('Ú', ['U', '́']),
   ('Ü', ['U', '̈']), ('Ñ', ['N', '̃']), ('à', ['a', '̀']),
   ('è', ['e', '̀']), ('ì', ['i', '̀']), ('ò', ['o', '̀']),
   ('ù', ['u', '̀']), ('À', ['A', '̀']), ('È', ['E', '̀']),
   ('Ì', ['I', '̀']), ('Ò', ['O', '̀']), ('Ù', ['U', '̀']),
   ('â', ['a', '̂']), ('ê', ['e', '̂']), ('î', ['i', '̂']),
   ('ô', ['o', '̂']), ('û', ['u', '̂']), ('Â', ['A', '̂']),
   ('Ê', ['E', '̂']), ('Î', ['I', '̂']), ('Ô', ['O', '̂']),
   ('Û', ['U', '̂']), ('ç', ['c', '̧']), ('Ç', ['C', '̧'])]

/-- NFD decomposition of one character. -/
def nfdChar (c : Char) : List Char := (nfdTable.lookup c).getD [c]

/-! ### List-of-characters utilities (Python string operations) -/

/-- `startsWith pat l`: `pat` is an initial segment of `l`. -/
def startsWith : List Char → List Char → Bool
  | [], _ => true
  | _ :: _, [] => false
  | c :: cs, d :: ds => c == d && startsWith cs ds

/-- `occursAt pat l i`: an occurrence of `pat` begins at index `i` of `l`. -/
def occursAt (pat l : List Char) (i : Nat) : Prop := startsWith pat (l.drop i) = true

instance (pat l : List Char) (i : Nat) : Decidable (occursAt pat l i) := by
  unfold occursAt; infer_instance

/-- `occursIn pat l`: `pat` occurs somewhere in `l` (Python `pat in l`). -/
def occursIn (pat l : List Char) : Bool :=
  (List.range (l.length + 1)).any (fun i => startsWith pat (l.drop i))

/-- Python `str.find`: index of the leftmost occurrence of `pat`, if any
(`pat` is nonempty in every use here). -/
def firstOccur (pat : List Char) : List Char → Option Nat
  | [] => none
  | l@(_ :: cs) =>
    if startsWith pat l then some 0
    else (firstOccur pat cs).map (· + 1)

/-- Worker for `pyReplace`, structurally recursive on a fuel bound so that
the kernel can evaluate it; the fuel (initially the list length) never runs
out, and the `0` fallback is unreachable. -/
def pyReplaceGo (pat rep : List Char) : Nat → List Char → List Char
  | _, [] => []
  | 0, l => l
  | fuel + 1, c :: cs =>
    if startsWith pat (c :: cs) ∧ pat ≠ [] then
      rep ++ pyReplaceGo pat rep fuel ((c :: cs).drop pat.length)
    else
      c :: pyReplaceGo pat rep fuel cs

/-- Python `str.replace pat rep` (all occurrences, leftmost, non-overlapping);
`pat` is nonempty in every use here. -/
def pyReplace (pat rep l : List Char) : List Char := pyReplaceGo pat rep l.length l

/-- Worker for `pySplit`, structurally recursive on a fuel bound. -/
def pySplitGo : Nat → List Char → List (List Char)
  | _, [] => []
  | 0, _ => []
  | fuel + 1, c :: cs =>
    if isWs c then pySplitGo fuel cs
    else ((c :: cs).takeWhile (fun d => ¬ isWs d)) ::
         pySplitGo fuel ((c :: cs).dropWhile (fun d => ¬ isWs d))

/-- Python `str.split()` (split on whitespace runs, dropping empty pieces). -/
def pySplit (l : List Char) : List (List Char) := pySplitGo l.length l

/-- Join words with single spaces (`" ".join`). -/
def joinWords : List (List Char) → List Char
  | [] => []
  | [w] => w
  | w :: ws => w ++ ' ' :: joinWords ws

/-- Python `" ".join(text.split())`: collapse whitespace runs and trim. -/
def collapseWs (l : List Char) : List Char := joinWords (pySplit l)

/-- Worker for `collapseRuns`, structurally recursive on a fuel bound. -/
def collapseRunsGo : Nat → List Char → List Char
  | _, [] => []
  | 0, l => l
  | fuel + 1, c :: cs =>
    if isWs c then ' ' :: collapseRunsGo fuel (cs.dropWhile isWs)
    else c :: collapseRunsGo fuel cs

/-- Python `re.sub(r"\s+", " ", text)`: each whitespace run becomes a single
space (ends included, no trimming). -/
def collapseRuns (l : List Char) : List Char := collapseRunsGo l.length l

/-- Strip characters satisfying `p` from both ends. -/
def stripWhile (p : Char → Bool) (l : List Char) : List Char :=
  ((l.dropWhile p).reverse.dropWhile p).reverse

/-- Every whitespace character of the list is a plain space
(the first canonical-whitespace condition for `collapseWs` outputs). -/
def allWsSpace (l : List Char) : Bool := l.all (fun c => !isWs c || c == ' ')

/-- No two adjacent whitespace characters. -/
def noDouble : List Char → Bool
  | [] => true
  | [_] => true
  | c :: d :: rest => !(isWs c && isWs d) && noDouble (d :: rest)

/-- The head, if any, is not whitespace. -/
def headNonWs : List Char → Bool
  | [] => true
  | c :: _ => !isWs c

/-- The last character, if any, is not whitespace. -/
def lastNonWs (l : List Char) : Bool :=
  match l.getLast? with
  | none => true
  | some c => !isWs c

/-- Python `str.strip()` (whitespace). -/
def pyStrip (l : List Char) : List Char := stripWhile isWs l

/-- Python `str.strip(chars)` for an explicit character set. -/
def pyStripSet (set : List Char) (l : List Char) : List Char :=
  stripWhile (fun c => c ∈ set) l

/-- Python `str.upper` on a string. -/
def pyUpper (l : List Char) : List Char := l.map pyUpperChar

/-- Python `str.title`: a cased character is uppercased after a non-cased
character and lowercased after a cased one. -/
def pyTitleGo : Bool → List Char → List Char
  | _, [] => []
  | prevCased, c :: cs =>
    if isCasedCh c then
      (if prevCased then pyLowerChar c else pyUpperChar c) :: pyTitleGo true cs
    else
      c :: pyTitleGo false cs

def pyTitle (l : List Char) : List Char := pyTitleGo false l

/-- Order-preserving deduplication with a `seen` accumulator, as the v2
script does with a Python `set` plus output list. -/
def dedupSeen (seen : List String) : List String → List String
  | [] => []
  | q :: qs => if q ∈ seen then dedupSeen seen qs else q :: dedupSeen (q :: seen) qs

def dedupFirst (l : List String) : List String := dedupSeen [] l

/-- `", ".join` on a list of strings. -/
def joinComma : List String → String
  | [] => ""
  | [s] => s
  | s :: rest => s ++ ", " ++ joinComma rest

/-! ### `preparar_casillas_para_geocodificar - copia.py` -/

/-- The abbreviation-expansion table of `limpiar_domicilio`, in source order. -/
def reemplazos : List (String × String) :=
  [(" NO. ", " "), (" NUM. ", " "), (" NUMERO ", " "), (" NÚM. ", " "),
   (" S/N", " SN"), ("C/", "CALLE "), (" C. ", " CALLE ")]

/-- `re.sub(r"^DOMICILIO\s*:\s*", "", txt)`: strip a leading label. -/
def removeDomicilioLabel (l : List Char) : List Char :=
  if startsWith "DOMICILIO".data l then
    match (l.drop 9).dropWhile isWs with
    | ':' :: rest => rest.dropWhile isWs
    | _ => l
  else l

/-- `limpiar_domicilio` from the preparation script. -/
def limpiar_domicilio (raw : String) : String :=
  if raw = "" then "" else
  let txt := pyStrip (pyUpper raw.data)
  let txt := removeDomicilioLabel txt
  let txt := collapseRuns txt
  let txt := reemplazos.foldl (fun t kv => pyReplace kv.1.data kv.2.data t) txt
  ⟨pyStripSet ",.;- ".data txt⟩

/-- The noise markers of `domicilio_corto`, in source order. -/
def marcadores : List String :=
  [" COLONIA ", " COL. ", " FRACCIONAMIENTO ", " FRACC. ", " BARRIO ",
   " ZONA ", " COMUNIDAD ", " COL ", " FRACC "]

/-- `domicilio_corto` from the preparation script: cut before the
earliest-position marker occurrence, then trim. -/
def domicilio_corto (txt : String) : String :=
  if txt = "" then "" else
  let base := ' ' :: txt.data ++ [' ']
  let corte := marcadores.foldl
    (fun pos mk =>
      match firstOccur mk.data base with
      | some i => if i < pos then i else pos
      | none => pos)
    base.length
  ⟨pyStripSet ",.;- ".data (pyStrip (base.take corte))⟩

/-! ### `geocodificar_casillas_gto_v2.py`: text utilities -/

def eniePlaceholderMin : List Char := "__enie_min__".data
def eniePlaceholderMay : List Char := "__enie_may__".data

/-- `strip_accents_keep_enie`: collapse whitespace, protect ñ/Ñ with
placeholder tokens, strip combining marks after NFD decomposition, then
restore the placeholders. -/
def strip_accents_keep_enie (text : String) : String :=
  if text = "" then "" else
  let t := collapseWs text.data
  let t := pyReplace ['ñ'] eniePlaceholderMin t
  let t := pyReplace ['Ñ'] eniePlaceholderMay t
  let t := (t.flatMap nfdChar).filter (fun c => ¬ isMn c)
  let t := pyReplace eniePlaceholderMin ['ñ'] t
  let t := pyReplace eniePlaceholderMay ['Ñ'] t
  ⟨t⟩

/-- The noise-phrase list `cortes` of `limpiar_frases_basura`, in source order. -/
def cortes : List String :=
  [" A 50 METROS", " A 100 METROS", " A 200 METROS", " A UN COSTADO",
   " FRENTE A ", " FRENTE AL ", " ENTRE CALLE", " ENTRE LA CALLE",
   " ESQUINA ", " ESQ. ", " ESQ ", " SOBRE LA CARRETERA", " SOBRE CARRETERA",
   " LADO DERECHO", " LADO IZQUIERDO", " A ESPALDAS"]

/-- The `for marca in cortes: ... break` loop: truncate at the first
occurrence of the first listed phrase that occurs, then stop. -/
def cutAtFirstListed : List (List Char) → List Char → List Char
  | [], txt => txt
  | marca :: rest, txt =>
    match firstOccur marca txt with
    | some i => txt.take i
    | none => cutAtFirstListed rest txt

/-- `limpiar_frases_basura` from the v2 script. -/
def limpiar_frases_basura (domicilio : String) : String :=
  if domicilio = "" then "" else
  let txt := pyUpper domicilio.data
  let txt := cutAtFirstListed (cortes.map String.data) txt
  let txt := pyReplace " SIN NUMERO".data [] txt
  let txt := pyReplace " S/N".data [] txt
  let txt := collapseWs txt
  ⟨pyStripSet ", ".data txt⟩

/-- `construir_domicilio_corto` from the v2 script. -/
def construir_domicilio_corto (domicilio_limpio : String) (localidad : String) : String :=
  let loc : String := ⟨pyStrip localidad.data⟩
  let partes :=
    (if domicilio_limpio ≠ "" then [domicilio_limpio] else [])
    ++ (if loc ≠ "" ∧ occursIn (pyUpper loc.data) (pyUpper domicilio_limpio.data) = false
        then [loc] else [])
  joinComma partes

/-- The normalised (pre-deduplication) candidate list of
`armar_queries_geocod`: the Python list `queries_norm`. -/
def armarRawQueries (domicilio_corto localidad municipio : String) : List String :=
  let loc : String := ⟨pyStrip localidad.data⟩
  let muni : String := ⟨pyStrip municipio.data⟩
  let queries :=
    (if domicilio_corto ≠ "" ∧ muni ≠ "" then
       [domicilio_corto ++ ", " ++ muni ++ ", Guanajuato, Mexico"]
     else if domicilio_corto ≠ "" then
       [domicilio_corto ++ ", Guanajuato, Mexico"]
     else [])
    ++ (if loc ≠ "" ∧ muni ≠ "" then
          [loc ++ ", " ++ muni ++ ", Guanajuato, Mexico"]
        else if loc ≠ "" then
          [loc ++ ", Guanajuato, Mexico"]
        else [])
    ++ (if muni ≠ "" then [muni ++ ", Guanajuato, Mexico"] else [])
    ++ ["Guanajuato, Mexico"]
  queries.map strip_accents_keep_enie

/-- `armar_queries_geocod` from the v2 script: tiered candidate queries,
normalised and deduplicated preserving first-seen order. -/
def armar_queries_geocod (domicilio_corto localidad municipio : String) : List String :=
  dedupFirst (armarRawQueries domicilio_corto localidad municipio)

/-! ### `geocodificar_casillas.py`: extractors and query builder

The two `re.search` patterns are implemented as specialised matchers.
Both patterns are deterministic except for one backtracking wrinkle: in
`\s*([^,]+)` (or `\s+([^,]+)`), when the greedy whitespace run is followed
directly by a comma or the end, the engine backtracks one whitespace
character so that the group captures a single space.  The matchers
reproduce this. -/

/-- Continuation of the postal-code pattern after the five digits:
`,\s*([^,]+),\s*GUANAJUATO`, pairing the already-captured digits `ds` with
the municipality group. -/
def tryCPTail (ds r2after : List Char) : Option (List Char × List Char) :=
  match r2after with
  | ',' :: r3 =>
    let w := r3.takeWhile isWs
    let r4 := r3.dropWhile isWs
    let g2 := r4.takeWhile (· ≠ ',')
    if g2 ≠ [] then
      match r4.drop g2.length with
      | ',' :: r5 =>
        if startsWith "GUANAJUATO".data (r5.dropWhile isWs) then some (ds, g2) else none
      | _ => none
    else if w.length ≥ 1 then
      match r4 with
      | ',' :: r5 =>
        if startsWith "GUANAJUATO".data (r5.dropWhile isWs) then some (ds, [' ']) else none
      | _ => none
    else none
  | _ => none

/-- Attempt `,\s*(\d{5}),\s*([^,]+),\s*GUANAJUATO` at the head of `l`,
returning (postal code, municipality group). -/
def tryCP (l : List Char) : Option (List Char × List Char) :=
  match l with
  | ',' :: r1 =>
    let r2 := r1.dropWhile isWs
    let ds := r2.take 5
    if ds.length = 5 ∧ ds.all isDigitCh then
      tryCPTail ds (r2.drop 5)
    else none
  | _ => none

/-- `re.search` for the postal-code pattern: leftmost successful start. -/
def searchCP : List Char → Option (List Char × List Char)
  | [] => none
  | l@(_ :: cs) =>
    match tryCP l with
    | some r => some r
    | none => searchCP cs

/-- `extraer_cp_y_mpio` from `geocodificar_casillas.py`. -/
def extraer_cp_y_mpio (dom_full : String) : Option String × Option String :=
  if dom_full = "" then (none, none) else
  match searchCP (pyUpper dom_full.data) with
  | some (cp, g2) => (some ⟨cp⟩, some ⟨pyTitle g2⟩)
  | none => (none, none)

/-- Attempt `LOCALIDAD\s+([^,]+)` at the head of `l`. -/
def tryLocA (l : List Char) : Option (List Char) :=
  if startsWith "LOCALIDAD".data l then
    let r := l.drop 9
    let w := r.takeWhile isWs
    if w = [] then none else
    let r2 := r.dropWhile isWs
    let g := r2.takeWhile (· ≠ ',')
    if g ≠ [] then some g
    else if w.length ≥ 2 then some [' ']
    else none
  else none

def searchLocA : List Char → Option (List Char)
  | [] => none
  | l@(_ :: cs) =>
    match tryLocA l with
    | some r => some r
    | none => searchLocA cs

/-- Continuation of the second locality pattern after its group:
`,\s*(\d{5}),\s*ABASOLO`. -/
def tryLocBCont (g r3 : List Char) : Option (List Char) :=
  match r3 with
  | ',' :: r4 =>
    let r5 := r4.dropWhile isWs
    let ds := r5.take 5
    if ds.length = 5 ∧ ds.all isDigitCh then
      match r5.drop 5 with
      | ',' :: r6 =>
        if startsWith "ABASOLO".data (r6.dropWhile isWs) then some g else none
      | _ => none
    else none
  | _ => none

/-- Attempt `,\s*([^,]+),\s*(\d{5}),\s*ABASOLO` at the head of `l`,
returning the first group. -/
def tryLocB (l : List Char) : Option (List Char) :=
  match l with
  | ',' :: r1 =>
    let w := r1.takeWhile isWs
    let r2 := r1.dropWhile isWs
    let g := r2.takeWhile (· ≠ ',')
    if g ≠ [] then tryLocBCont g (r2.drop g.length)
    else if w.length ≥ 1 then tryLocBCont [' '] r2
    else none
  | _ => none

def searchLocB : List Char → Option (List Char)
  | [] => none
  | l@(_ :: cs) =>
    match tryLocB l with
    | some r => some r
    | none => searchLocB cs

/-- The manual locality-correction table `LOCALIDAD_CORR`. -/
def localidadCorr : List (String × String) :=
  [("ESTACIÓN JOAQUÓN", "Estación Joaquín"),
   ("SAN JOS DE GONZΜLEZ", "San José de González"),
   ("ALTO DE ALCOCER", "Alto de Alcocer")]

/-- `extraer_localidad` from `geocodificar_casillas.py`. -/
def extraer_localidad (dom_full : String) : Option String :=
  if dom_full = "" then none else
  let txt := pyUpper dom_full.data
  match (searchLocA txt).orElse (fun _ => searchLocB txt) with
  | none => none
  | some g =>
    let loc : String := ⟨pyUpper (pyStrip g)⟩
    let corr := (localidadCorr.lookup loc).getD loc
    some ⟨pyTitle corr.data⟩

/-- Python truthiness of an optional string (`None` and `""` are falsy). -/
def optTruthy : Option String → Bool
  | none => false
  | some s => s ≠ ""

/-- The three address properties `build_query` reads (absent keys are `""`,
as `props.get(...) or ""` yields). -/
structure PropsV1 where
  dom_corto : String
  dom_limpio : String
  dom_full : String

/-- `build_query` from `geocodificar_casillas.py`: at most one query. -/
def build_query (props : PropsV1) : Option String :=
  if props.dom_corto = "" ∧ props.dom_limpio = "" ∧ props.dom_full = "" then none
  else
    let mpio := (extraer_cp_y_mpio props.dom_full).2
    let localidad := extraer_localidad props.dom_full
    if optTruthy localidad ∧ optTruthy mpio then
      some (localidad.getD "" ++ ", " ++ mpio.getD "" ++ ", Guanajuato, México")
    else if optTruthy mpio then
      some (mpio.getD "" ++ ", Guanajuato, México")
    else
      let base := if props.dom_corto ≠ "" then props.dom_corto
                  else if props.dom_limpio ≠ "" then props.dom_limpio
                  else props.dom_full
      some (base ++ ", Guanajuato, México")

/-! ### Resolution engines

The geocoding capability is opaque: a function from the query string to an
outcome (a coordinate, no match, or a raised exception).  Coordinates are
abstracted as integer pairs; no claim depends on their values.  Each model
threads a log of the queries for which the external capability was
actually invoked. -/

abbrev Coord := Int × Int

inductive LookupOutcome where
  | raised
  | noHit
  | hit (c : Coord)

inductive GeoStatus where
  | OK
  | SIN_MATCH
  | SIN_DIRECCION
deriving DecidableEq, Repr

/-- The `try: loc = geocode(q) except: loc = None` wrapper of the v1 script. -/
def outcomeToLoc : LookupOutcome → Option Coord
  | .raised => none
  | .noHit => none
  | .hit c => some c

/-- Run-lifetime state of the v1 script: the query cache plus the log of
external invocations. -/
structure V1State where
  cache : List (String × Option Coord)
  callLog : List String

/-- One v1 output feature: status, geometry and `GEOCOD_QUERY` (absent for
`SIN_DIRECCION`). -/
structure FeatureV1 where
  status : GeoStatus
  geometry : Option Coord
  query : Option String

/-- One iteration of the v1 main loop (`geocodificar_casillas.py`). -/
def stepV1 (lookup : String → LookupOutcome) (st : V1State) (props : PropsV1) :
    V1State × FeatureV1 :=
  let qOpt := build_query props
  if optTruthy qOpt = false then
    (st, ⟨.SIN_DIRECCION, none, none⟩)
  else
    let q := qOpt.getD ""
    match st.cache.lookup q with
    | some loc =>
      (st, match loc with
           | some c => ⟨.OK, some c, some q⟩
           | none => ⟨.SIN_MATCH, none, some q⟩)
    | none =>
      let loc := outcomeToLoc (lookup q)
      ({ cache := (q, loc) :: st.cache, callLog := st.callLog ++ [q] },
       match loc with
       | some c => ⟨.OK, some c, some q⟩
       | none => ⟨.SIN_MATCH, none, some q⟩)

/-- The whole v1 main loop over the feature list. -/
def runV1 (lookup : String → LookupOutcome) :
    V1State → List PropsV1 → V1State × List FeatureV1
  | st, [] => (st, [])
  | st, p :: ps =>
    let r := stepV1 lookup st p
    let rest := runV1 lookup r.1 ps
    (rest.1, r.2 :: rest.2)

/-- One input CSV row of the v2 script. -/
structure RowV2 where
  seccion : String
  casilla : String
  localidad : String
  domicilio : String

/-- One v2 output feature (the property fields the claims are about). -/
structure FeatureV2 where
  status : GeoStatus
  geometry : Option Coord
  query : String
  dom_limpio : String
  dom_corto : String

/-- The `for q in queries` loop of the v2 main: skip falsy queries, call the
capability, continue on a raised exception *without* recording the query,
record the query on a miss, stop on a hit.  Returns status, geometry, the
final `geocod_query`, and the invocation log. -/
def geocodeLoop (lookup : String → LookupOutcome) :
    List String → String → List String → GeoStatus × Option Coord × String × List String
  | [], lastQ, log => (.SIN_MATCH, none, lastQ, log)
  | q :: qs, lastQ, log =>
    if q = "" then geocodeLoop lookup qs lastQ log
    else
      match lookup q with
      | .raised => geocodeLoop lookup qs lastQ (log ++ [q])
      | .hit c => (.OK, some c, q, log ++ [q])
      | .noHit => geocodeLoop lookup qs q (log ++ [q])

/-- One iteration of the v2 main loop (`geocodificar_casillas_gto_v2.py`);
`mapa` is the section→municipality side table. -/
def stepV2 (lookup : String → LookupOutcome) (mapa : List (String × String))
    (row : RowV2) : FeatureV2 × List String :=
  let seccion : String := ⟨pyStrip row.seccion.data⟩
  let localidad : String := ⟨pyStrip row.localidad.data⟩
  let domicilio : String := ⟨pyStrip row.domicilio.data⟩
  let municipio := (mapa.lookup seccion).getD ""
  let dom_limpio := limpiar_frases_basura domicilio
  let dom_corto := construir_domicilio_corto dom_limpio localidad
  let queries := armar_queries_geocod dom_corto localidad municipio
  let r := geocodeLoop lookup queries "" []
  ({ status := r.1, geometry := r.2.1, query := r.2.2.1,
     dom_limpio := dom_limpio, dom_corto := dom_corto }, r.2.2.2)

/-- The whole v2 main loop over the row list, concatenating the logs. -/
def runV2 (lookup : String → LookupOutcome) (mapa : List (String × String)) :
    List RowV2 → List FeatureV2 × List String
  | [] => ([], [])
  | r :: rs =>
    let x := stepV2 lookup mapa r
    let rest := runV2 lookup mapa rs
    (x.1 :: rest.1, x.2 ++ rest.2)

/-! ### Derived definitions used to state the claims -/

def optToList : Option String → List String
  | none => []
  | some s => [s]

/-- The tier-1 candidate of `armar_queries_geocod` (short address), after
normalisation, when present. -/
def tier1Query (domicilio_corto municipio : String) : Option String :=
  let muni : String := ⟨pyStrip municipio.data⟩
  if domicilio_corto ≠ "" ∧ muni ≠ "" then
    some (strip_accents_keep_enie (domicilio_corto ++ ", " ++ muni ++ ", Guanajuato, Mexico"))
  else if domicilio_corto ≠ "" then
    some (strip_accents_keep_enie (domicilio_corto ++ ", Guanajuato, Mexico"))
  else none

/-- The tier-2 candidate (locality), after normalisation, when present. -/
def tier2Query (localidad municipio : String) : Option String :=
  let loc : String := ⟨pyStrip localidad.data⟩
  let muni : String := ⟨pyStrip municipio.data⟩
  if loc ≠ "" ∧ muni ≠ "" then
    some (strip_accents_keep_enie (loc ++ ", " ++ muni ++ ", Guanajuato, Mexico"))
  else if loc ≠ "" then
    some (strip_accents_keep_enie (loc ++ ", Guanajuato, Mexico"))
  else none

/-- The tier-3 candidate (municipality), after normalisation, when present. -/
def tier3Query (municipio : String) : Option String :=
  let muni : String := ⟨pyStrip municipio.data⟩
  if muni ≠ "" then
    some (strip_accents_keep_enie (muni ++ ", Guanajuato, Mexico"))
  else none

/-- Count of a character in a character list. -/
def countc (c : Char) (l : List Char) : Nat := l.count c

/-- Per-character image of the protection + NFD + mark-filter stage of
`strip_accents_keep_enie` (ñ/Ñ are sitting as placeholder tokens). -/
def hChar (c : Char) : List Char :=
  if c = 'ñ' then eniePlaceholderMin
  else if c = 'Ñ' then eniePlaceholderMay
  else (nfdChar c).filter (fun d => ¬ isMn d)

/-- Per-character image after restoring the min placeholder. -/
def hChar1 (c : Char) : List Char :=
  if c = 'ñ' then ['ñ']
  else if c = 'Ñ' then eniePlaceholderMay
  else (nfdChar c).filter (fun d => ¬ isMn d)

/-- Per-character specification of the whole of `strip_accents_keep_enie`
after whitespace collapse: ñ and Ñ pass through, every other character is
NFD-decomposed and its combining marks dropped. -/
def specChar (c : Char) : List Char :=
  if c = 'ñ' then ['ñ']
  else if c = 'Ñ' then ['Ñ']
  else (nfdChar c).filter (fun d => ¬ isMn d)

/-- The candidate-query list the v2 main loop computes for one row
(the `armar_queries_geocod` call of `stepV2`, exposed for statements). -/
def rowQueriesV2 (mapa : List (String × String)) (row : RowV2) : List String :=
  let localidad : String := ⟨pyStrip row.localidad.data⟩
  let domicilio : String := ⟨pyStrip row.domicilio.data⟩
  let municipio := (mapa.lookup (⟨pyStrip row.seccion.data⟩ : String)).getD ""
  armar_queries_geocod
    (construir_domicilio_corto (limpiar_frases_basura domicilio) localidad)
    localidad municipio

/-- The first phrase of the list that occurs in `txt`, with the index of its
leftmost occurrence (the pair the `for marca in cortes` loop acts on). -/
def firstListedHit : List (List Char) → List Char → Option (List Char × Nat)
  | [], _ => none
  | m :: rest, txt =>
    match firstOccur m txt with
    | some i => some (m, i)
    | none => firstListedHit rest txt

/-! ### Generic lemmas: initial segments, occurrences, `firstOccur` -/

theorem startsWith_append (pat rest : List Char) : startsWith pat (pat ++ rest) = true := by
  induction pat with
  | nil => rfl
  | cons c cs ih => simp [startsWith, ih]

theorem startsWith_ex {pat l : List Char} (h : startsWith pat l = true) :
    ∃ rest, l = pat ++ rest := by
  induction pat generalizing l with
  | nil => exact ⟨l, rfl⟩
  | cons c cs ih =>
    cases l with
    | nil => simp [startsWith] at h
    | cons d ds =>
      simp only [startsWith, Bool.and_eq_true, beq_iff_eq] at h
      obtain ⟨rfl, h2⟩ := h
      obtain ⟨rest, rfl⟩ := ih h2
      exact ⟨rest, rfl⟩

theorem startsWith_nil_false {pat : List Char} (hp : pat ≠ []) :
    startsWith pat [] = false := by
  cases pat with
  | nil => exact absurd rfl hp
  | cons c cs => rfl

theorem occursAt_cons_succ (pat : List Char) (c : Char) (cs : List Char) (j : Nat) :
    occursAt pat (c :: cs) (j + 1) ↔ occursAt pat cs j := by
  simp [occursAt]

theorem firstOccur_spec {pat : List Char} :
    ∀ {l : List Char} {i : Nat}, firstOccur pat l = some i →
      occursAt pat l i ∧ ∀ j, j < i → ¬ occursAt pat l j := by
  intro l
  induction l with
  | nil => intro i h; simp [firstOccur] at h
  | cons c cs ih =>
    intro i h
    by_cases hs : startsWith pat (c :: cs) = true
    · simp [firstOccur, hs] at h
      subst h
      exact ⟨by simpa [occursAt] using hs, fun j hj => absurd hj (Nat.not_lt_zero j)⟩
    · simp [firstOccur, hs] at h
      obtain ⟨i', hi', rfl⟩ := h
      obtain ⟨h1, h2⟩ := ih hi'
      refine ⟨(occursAt_cons_succ pat c cs i').mpr h1, ?_⟩
      intro j hj
      cases j with
      | zero => simpa [occursAt] using fun hh => hs hh
      | succ j' =>
        rw [occursAt_cons_succ]
        exact h2 j' (Nat.lt_of_succ_lt_succ hj)

theorem firstOccur_none_spec {pat : List Char} (hp : pat ≠ []) :
    ∀ {l : List Char}, firstOccur pat l = none → ∀ j, ¬ occursAt pat l j := by
  intro l
  induction l with
  | nil =>
    intro _ j
    simp [occursAt, List.drop_nil, startsWith_nil_false hp]
  | cons c cs ih =>
    intro h j
    by_cases hs : startsWith pat (c :: cs) = true
    · simp [firstOccur, hs] at h
    · simp [firstOccur, hs] at h
      cases j with
      | zero => simpa [occursAt] using fun hh => hs hh
      | succ j' =>
        rw [occursAt_cons_succ]
        exact ih h j'

theorem startsWith_of_take {pat m : List Char} {k : Nat}
    (h : startsWith pat (m.take k) = true) : startsWith pat m = true := by
  induction pat generalizing m k with
  | nil => rfl
  | cons c cs ih =>
    cases m with
    | nil => simpa using h
    | cons d ds =>
      cases k with
      | zero => simp [startsWith_nil_false] at h
      | succ k' =>
        simp only [List.take_succ_cons, startsWith, Bool.and_eq_true, beq_iff_eq] at h ⊢
        exact ⟨h.1, ih h.2⟩

theorem not_occursAt_take {pat l : List Char} {i : Nat} (hp : pat ≠ [])
    (hf : firstOccur pat l = some i) : ∀ j, ¬ occursAt pat (l.take i) j := by
  intro j hocc
  unfold occursAt at hocc
  rw [List.drop_take] at hocc
  by_cases hij : i ≤ j
  · rw [Nat.sub_eq_zero_of_le hij, List.take_zero, startsWith_nil_false hp] at hocc
    cases hocc
  · have : occursAt pat l j := startsWith_of_take hocc
    exact (firstOccur_spec hf).2 j (Nat.lt_of_not_le hij) this

theorem occursIn_iff {pat l : List Char} :
    occursIn pat l = true ↔ ∃ j, occursAt pat l j := by
  constructor
  · intro h
    simp only [occursIn, List.any_eq_true, List.mem_range] at h
    obtain ⟨i, _, hi⟩ := h
    exact ⟨i, hi⟩
  · rintro ⟨j, hj⟩
    simp only [occursIn, List.any_eq_true, List.mem_range]
    cases pat with
    | nil => exact ⟨0, Nat.succ_pos _, rfl⟩
    | cons c cs =>
      refine ⟨j, ?_, hj⟩
      by_contra hjl
      have hle : l.length ≤ j := by omega
      unfold occursAt at hj
      rw [List.drop_of_length_le hle] at hj
      exact absurd hj (by simp [startsWith_nil_false])

/-! ### Lemmas about `pyReplace` -/

theorem length_dropWhile_le' (p : Char → Bool) :
    ∀ l : List Char, (l.dropWhile p).length ≤ l.length
  | [] => Nat.le_refl _
  | c :: cs => by
    rw [List.dropWhile_cons]
    split
    · exact Nat.le_trans (length_dropWhile_le' p cs) (Nat.le_succ _)
    · exact Nat.le_refl _

theorem pyReplaceGo_nil (pat rep : List Char) (fuel : Nat) :
    pyReplaceGo pat rep fuel [] = [] := by
  cases fuel <;> rfl

theorem pyReplaceGo_fuel_inv {pat rep : List Char} :
    ∀ (f₁ : Nat) {f₂ : Nat} {l : List Char}, l.length ≤ f₁ → l.length ≤ f₂ →
      pyReplaceGo pat rep f₁ l = pyReplaceGo pat rep f₂ l := by
  intro f₁
  induction f₁ with
  | zero =>
    intro f₂ l h₁ _
    have : l = [] := List.length_eq_zero.mp (Nat.le_zero.mp h₁)
    subst this
    rw [pyReplaceGo_nil, pyReplaceGo_nil]
  | succ f₁' ih =>
    intro f₂ l h₁ h₂
    cases l with
    | nil => rw [pyReplaceGo_nil, pyReplaceGo_nil]
    | cons c cs =>
      cases f₂ with
      | zero => simp at h₂
      | succ f₂' =>
        simp only [pyReplaceGo]
        by_cases hm : startsWith pat (c :: cs) ∧ pat ≠ []
        · rw [if_pos hm, if_pos hm]
          congr 1
          have hplen : 1 ≤ pat.length :=
            Nat.pos_of_ne_zero (fun h0 => hm.2 (List.length_eq_zero.mp h0))
          have hd : ((c :: cs).drop pat.length).length ≤ f₁' := by
            simp only [List.length_drop, List.length_cons]
            simp only [List.length_cons] at h₁
            omega
          have hd₂ : ((c :: cs).drop pat.length).length ≤ f₂' := by
            simp only [List.length_drop, List.length_cons]
            simp only [List.length_cons] at h₂
            omega
          exact ih hd hd₂
        · rw [if_neg hm, if_neg hm]
          congr 1
          simp only [List.length_cons] at h₁ h₂
          exact ih (by omega) (by omega)

theorem pyReplace_nil (pat rep : List Char) : pyReplace pat rep [] = [] := rfl

theorem pyReplace_cons (pat rep : List Char) (c : Char) (cs : List Char) :
    pyReplace pat rep (c :: cs) =
      if startsWith pat (c :: cs) ∧ pat ≠ [] then
        rep ++ pyReplace pat rep ((c :: cs).drop pat.length)
      else
        c :: pyReplace pat rep cs := by
  show pyReplaceGo pat rep (cs.length + 1) (c :: cs) = _
  simp only [pyReplaceGo]
  by_cases hm : startsWith pat (c :: cs) ∧ pat ≠ []
  · rw [if_pos hm, if_pos hm]
    congr 1
    apply pyReplaceGo_fuel_inv
    · have hplen : 1 ≤ pat.length :=
        Nat.pos_of_ne_zero (fun h0 => hm.2 (List.length_eq_zero.mp h0))
      simp only [List.length_drop, List.length_cons]
      omega
    · exact Nat.le_refl _
  · rw [if_neg hm, if_neg hm]
    rfl

theorem pyReplace_match {pat : List Char} (hp : pat ≠ []) (rep rest : List Char) :
    pyReplace pat rep (pat ++ rest) = rep ++ pyReplace pat rep rest := by
  cases pat with
  | nil => exact absurd rfl hp
  | cons c cs =>
    rw [List.cons_append, pyReplace_cons,
        if_pos ⟨by rw [← List.cons_append]; exact startsWith_append (c :: cs) rest, hp⟩,
        ← List.cons_append, List.drop_left]

theorem pyReplace_nomatch_cons {pat rep : List Char} {c : Char} {m : List Char}
    (h : startsWith pat (c :: m) = false) :
    pyReplace pat rep (c :: m) = c :: pyReplace pat rep m := by
  rw [pyReplace_cons, if_neg]
  rintro ⟨h1, _⟩
  rw [h] at h1
  cases h1

theorem mem_of_startsWith {p : Char} {ps m : List Char}
    (h : startsWith (p :: ps) m = true) : p ∈ m := by
  obtain ⟨rest, rfl⟩ := startsWith_ex h
  exact List.mem_append.mpr (Or.inl (List.mem_cons_self p ps))

theorem pyReplace_append_head_notMem {p : Char} {ps rep : List Char} :
    ∀ {t m : List Char}, p ∉ t →
      pyReplace (p :: ps) rep (t ++ m) = t ++ pyReplace (p :: ps) rep m := by
  intro t
  induction t with
  | nil => intro m _; simp
  | cons c cs ih =>
    intro m ht
    have hc : (p == c) = false := by
      simp only [beq_eq_false_iff_ne, ne_eq]
      intro h
      exact ht (h ▸ List.mem_cons_self c cs)
    have hs : startsWith (p :: ps) (c :: (cs ++ m)) = false := by
      simp [startsWith, hc]
    rw [List.cons_append, pyReplace_nomatch_cons hs,
        ih (fun hmem => ht (List.mem_cons_of_mem c hmem)), List.cons_append]

theorem pyReplace_id_of_no_occur {pat rep : List Char} :
    ∀ {l : List Char}, (∀ j, ¬ occursAt pat l j) → pyReplace pat rep l = l := by
  intro l
  induction l with
  | nil => intro _; rfl
  | cons c cs ih =>
    intro h
    have h0 : startsWith pat (c :: cs) = false := by
      have := h 0
      simp only [occursAt, List.drop_zero] at this
      exact Bool.not_eq_true _ ▸ eq_false_of_ne_true this
    rw [pyReplace_nomatch_cons h0, ih ?_]
    intro j hj
    exact h (j + 1) ((occursAt_cons_succ pat c cs j).mpr hj)

theorem pyReplace_id_of_head_notMem {p : Char} {ps rep l : List Char}
    (h : p ∉ l) : pyReplace (p :: ps) rep l = l := by
  refine pyReplace_id_of_no_occur (fun j hj => h ?_)
  exact List.drop_subset j l (mem_of_startsWith hj)

theorem mem_pyReplaceGo {pat rep : List Char} :
    ∀ {fuel : Nat} {l : List Char} {a : Char},
      a ∈ pyReplaceGo pat rep fuel l → a ∈ l ∨ a ∈ rep := by
  intro fuel
  induction fuel with
  | zero =>
    intro l a h
    cases l with
    | nil => rw [pyReplaceGo_nil] at h; cases h
    | cons c cs => exact Or.inl h
  | succ f ih =>
    intro l a h
    cases l with
    | nil => rw [pyReplaceGo_nil] at h; cases h
    | cons c cs =>
      simp only [pyReplaceGo] at h
      by_cases hm : startsWith pat (c :: cs) ∧ pat ≠ []
      · rw [if_pos hm] at h
        rcases List.mem_append.mp h with hr | hrec
        · exact Or.inr hr
        · rcases ih hrec with hd | hr
          · exact Or.inl (List.drop_subset _ _ hd)
          · exact Or.inr hr
      · rw [if_neg hm] at h
        rcases List.mem_cons.mp h with rfl | hmem
        · exact Or.inl (List.mem_cons_self _ _)
        · rcases ih hmem with hd | hr
          · exact Or.inl (List.mem_cons_of_mem _ hd)
          · exact Or.inr hr

theorem mem_pyReplace {pat rep : List Char} {l : List Char} {a : Char}
    (h : a ∈ pyReplace pat rep l) : a ∈ l ∨ a ∈ rep :=
  mem_pyReplaceGo h

theorem count_pyReplaceGo {pat rep : List Char} {a : Char}
    (hpa : a ∉ pat) (hra : a ∉ rep) :
    ∀ {fuel : Nat} {l : List Char},
      countc a (pyReplaceGo pat rep fuel l) = countc a l := by
  intro fuel
  induction fuel with
  | zero =>
    intro l
    cases l with
    | nil => rw [pyReplaceGo_nil]
    | cons c cs => rfl
  | succ f ih =>
    intro l
    cases l with
    | nil => rw [pyReplaceGo_nil]
    | cons c cs =>
      simp only [pyReplaceGo]
      by_cases hm : startsWith pat (c :: cs) ∧ pat ≠ []
      · rw [if_pos hm]
        obtain ⟨rest, heq⟩ := startsWith_ex hm.1
        have hdrop : (c :: cs).drop pat.length = rest := by
          rw [heq, List.drop_left]
        simp only [countc, List.count_append] at ih ⊢
        rw [List.count_eq_zero_of_not_mem hra, hdrop, ih, heq, List.count_append,
            List.count_eq_zero_of_not_mem hpa]
      · rw [if_neg hm]
        simp only [countc, List.count_cons] at ih ⊢
        rw [ih]

theorem count_pyReplace {pat rep : List Char} {a : Char}
    (hpa : a ∉ pat) (hra : a ∉ rep) {l : List Char} :
    countc a (pyReplace pat rep l) = countc a l :=
  count_pyReplaceGo hpa hra

theorem pyReplace_single (a : Char) (rep : List Char) :
    ∀ l : List Char,
      pyReplace [a] rep l = l.flatMap (fun c => if c = a then rep else [c]) := by
  intro l
  induction l with
  | nil => rfl
  | cons c cs ih =>
    by_cases hca : c = a
    · subst hca
      have : ((c :: cs) : List Char) = [c] ++ cs := rfl
      rw [this, pyReplace_match (by simp) rep cs, ih]
      simp
    · have hs : startsWith [a] (c :: cs) = false := by
        simp only [startsWith, Bool.and_eq_true, beq_iff_eq]
        simp [Ne.symm hca]
      rw [pyReplace_nomatch_cons hs, ih]
      simp [hca]

/-! ### Lemmas about `dedupSeen` -/

theorem mem_dedupSeen :
    ∀ {l seen : List String} {x : String},
      x ∈ dedupSeen seen l ↔ x ∈ l ∧ x ∉ seen := by
  intro l
  induction l with
  | nil => intro seen x; simp [dedupSeen]
  | cons q qs ih =>
    intro seen x
    by_cases hq : q ∈ seen
    · rw [dedupSeen, if_pos hq, ih]
      constructor
      · rintro ⟨h1, h2⟩
        exact ⟨List.mem_cons_of_mem q h1, h2⟩
      · rintro ⟨h1, h2⟩
        rcases List.mem_cons.mp h1 with rfl | h1'
        · exact absurd hq h2
        · exact ⟨h1', h2⟩
    · rw [dedupSeen, if_neg hq]
      constructor
      · intro h
        rcases List.mem_cons.mp h with rfl | h'
        · exact ⟨List.mem_cons_self _ _, hq⟩
        · obtain ⟨h1, h2⟩ := ih.mp h'
          exact ⟨List.mem_cons_of_mem q h1,
                 fun hx => h2 (List.mem_cons_of_mem q hx)⟩
      · rintro ⟨h1, h2⟩
        rcases List.mem_cons.mp h1 with rfl | h1'
        · exact List.mem_cons_self _ _
        · by_cases hxq : x = q
          · subst hxq; exact List.mem_cons_self _ _
          · exact List.mem_cons_of_mem q
              (ih.mpr ⟨h1', by simp [List.mem_cons, hxq, h2]⟩)

theorem nodup_dedupSeen : ∀ (l seen : List String), (dedupSeen seen l).Nodup := by
  intro l
  induction l with
  | nil => intro seen; simp [dedupSeen]
  | cons q qs ih =>
    intro seen
    by_cases hq : q ∈ seen
    · rw [dedupSeen, if_pos hq]; exact ih seen
    · rw [dedupSeen, if_neg hq]
      refine List.nodup_cons.mpr ⟨fun hmem => ?_, ih (q :: seen)⟩
      exact (mem_dedupSeen.mp hmem).2 (List.mem_cons_self _ _)

theorem dedupSeen_sublist : ∀ (l seen : List String),
    List.Sublist (dedupSeen seen l) l := by
  intro l
  induction l with
  | nil => intro seen; simp [dedupSeen]
  | cons q qs ih =>
    intro seen
    by_cases hq : q ∈ seen
    · rw [dedupSeen, if_pos hq]; exact (ih seen).cons q
    · rw [dedupSeen, if_neg hq]; exact (ih (q :: seen)).cons₂ q

theorem pair_sublist_dedupSeen {a b : String} (hab : a ≠ b) :
    ∀ (l₁ : List String) {l₂ seen : List String},
      a ∉ seen → b ∉ seen → a ∉ l₁ → b ∉ l₁ → b ∈ l₂ →
      List.Sublist [a, b] (dedupSeen seen (l₁ ++ a :: l₂)) := by
  intro l₁
  induction l₁ with
  | nil =>
    intro l₂ seen ha hb _ _ hbl
    rw [List.nil_append, dedupSeen, if_neg ha]
    refine List.Sublist.cons₂ a ?_
    refine List.singleton_sublist.mpr ?_
    exact mem_dedupSeen.mpr ⟨hbl, by simp [List.mem_cons, hab.symm, hb]⟩
  | cons c l₁' ih =>
    intro l₂ seen ha hb hal hbl hbl₂
    have hac : a ≠ c := fun h => hal (h ▸ List.mem_cons_self c l₁')
    have hbc : b ≠ c := fun h => hbl (h ▸ List.mem_cons_self c l₁')
    rw [List.cons_append]
    by_cases hc : c ∈ seen
    · rw [dedupSeen, if_pos hc]
      exact ih ha hb (fun h => hal (List.mem_cons_of_mem c h))
        (fun h => hbl (List.mem_cons_of_mem c h)) hbl₂
    · rw [dedupSeen, if_neg hc]
      refine List.Sublist.cons c ?_
      exact ih (by simp [List.mem_cons, hac, ha]) (by simp [List.mem_cons, hbc, hb])
        (fun h => hal (List.mem_cons_of_mem c h))
        (fun h => hbl (List.mem_cons_of_mem c h)) hbl₂

/-! ### C9: the postal-code/municipality extractor returns both or neither -/

theorem tryCPTail_fst {ds r x y : List Char} (h : tryCPTail ds r = some (x, y)) :
    x = ds := by
  unfold tryCPTail at h
  split at h
  · dsimp only at h
    split at h
    · split at h
      · split at h
        · exact (Prod.mk.injEq .. ▸ Option.some.inj h).1.symm
        · simp at h
      · simp at h
    · split at h
      · split at h
        · split at h
          · exact (Prod.mk.injEq .. ▸ Option.some.inj h).1.symm
          · simp at h
        · simp at h
      · simp at h
  · simp at h

theorem tryCP_shape {l ds g : List Char} (h : tryCP l = some (ds, g)) :
    ds.length = 5 ∧ ds.all isDigitCh = true := by
  unfold tryCP at h
  split at h
  · dsimp only at h
    split at h
    · rename_i hdig
      have := tryCPTail_fst h
      subst this
      exact hdig
    · simp at h
  · simp at h

theorem searchCP_some :
    ∀ {l : List Char} {r : List Char × List Char},
      searchCP l = some r → ∃ m, tryCP m = some r := by
  intro l
  induction l with
  | nil => intro r h; simp [searchCP] at h
  | cons c cs ih =>
    intro r h
    rw [searchCP] at h
    split at h
    · exact ⟨c :: cs, by simp_all⟩
    · exact ih h

/-- C9: for every input string, `extraer_cp_y_mpio` returns either both a
postal code and a municipality name or neither; and every returned postal
code consists of exactly five ASCII digits. -/
theorem claim_C9_cp_mpio_both_or_neither (s : String) :
    ((extraer_cp_y_mpio s).1.isSome ↔ (extraer_cp_y_mpio s).2.isSome) ∧
    (∀ cp : String, (extraer_cp_y_mpio s).1 = some cp →
      cp.length = 5 ∧ cp.data.all isDigitCh = true) := by
  unfold extraer_cp_y_mpio
  split
  · exact ⟨Iff.rfl, fun cp h => by simp_all⟩
  · split
    · rename_i cp g2 heq
      refine ⟨by simp, fun cp' h => ?_⟩
      simp only [Option.some.injEq] at h
      obtain ⟨m, hm⟩ := searchCP_some heq
      obtain ⟨h5, hdig⟩ := tryCP_shape hm
      constructor
      · rw [← h]
        exact h5
      · rw [← h]
        exact hdig
    · exact ⟨Iff.rfl, fun cp h => by simp_all⟩

/-- C9 witness: a concrete address yields a five-digit code. -/
theorem claim_C9_cp_mpio_both_or_neither_witness :
    ("36970" : String).length = 5 ∧ "36970".data.all isDigitCh = true :=
  (claim_C9_cp_mpio_both_or_neither
      "CALLE JUAREZ 4, 36970, ABASOLO, GUANAJUATO, MEX").2 "36970" (by decide)

/-! ### C10: the v1 pipeline performs at most one external lookup per record -/

/-- C10: `build_query` yields at most one candidate (an `Option`), and one
iteration of the v1 main loop grows the external-invocation log by at most
one entry; when the query is absent the log is unchanged and the record is
classified `SIN_DIRECCION`. -/
theorem claim_C10_single_lookup (lookup : String → LookupOutcome)
    (st : V1State) (props : PropsV1) :
    ((stepV1 lookup st props).1.callLog.length ≤ st.callLog.length + 1) ∧
    (optTruthy (build_query props) = false →
      (stepV1 lookup st props).1 = st ∧
      (stepV1 lookup st props).2.status = .SIN_DIRECCION) := by
  unfold stepV1
  by_cases hq : optTruthy (build_query props) = false
  · simp [hq]
  · rw [if_neg hq]
    dsimp only
    constructor
    · split
      · exact Nat.le_succ _
      · simp
    · intro h; exact absurd h hq

/-- C10 witness: on a record with an address, one lookup happens; on the
empty record, none does and the status is `SIN_DIRECCION`. -/
theorem claim_C10_single_lookup_witness :
    (stepV1 (fun _ => .noHit) ⟨[], []⟩ ⟨"", "", ""⟩).1 = (⟨[], []⟩ : V1State) ∧
    (stepV1 (fun _ => .noHit) ⟨[], []⟩ ⟨"", "", ""⟩).2.status = .SIN_DIRECCION :=
  (claim_C10_single_lookup (fun _ => .noHit) ⟨[], []⟩ ⟨"", "", ""⟩).2 (by decide)

/-! ### Resolution-engine lemmas (v1 and v2) -/

theorem stepV1_feature (lookup : String → LookupOutcome) (st : V1State) (p : PropsV1) :
    (stepV1 lookup st p).2.status = .OK ↔
      ((stepV1 lookup st p).2.geometry).isSome = true := by
  unfold stepV1
  by_cases hq : optTruthy (build_query p) = false
  · simp [hq]
  · rw [if_neg hq]
    dsimp only
    split
    · rename_i loc _
      cases loc <;> simp
    · dsimp only
      cases houtc : outcomeToLoc (lookup ((build_query p).getD "")) <;> simp [houtc]

theorem geocodeLoop_feature (lookup : String → LookupOutcome) :
    ∀ (qs : List String) (lastQ : String) (log : List String),
      ((geocodeLoop lookup qs lastQ log).1 = .OK ↔
        ((geocodeLoop lookup qs lastQ log).2.1).isSome = true) ∧
      ((geocodeLoop lookup qs lastQ log).1 = .OK ∨
        (geocodeLoop lookup qs lastQ log).1 = .SIN_MATCH) := by
  intro qs
  induction qs with
  | nil => intro lastQ log; simp [geocodeLoop]
  | cons q qs ih =>
    intro lastQ log
    rw [geocodeLoop]
    by_cases hq : q = ""
    · rw [if_pos hq]; exact ih lastQ log
    · rw [if_neg hq]
      cases lookup q with
      | raised => exact ih lastQ (log ++ [q])
      | hit c => simp
      | noHit => exact ih q (log ++ [q])

theorem stepV2_feature (lookup : String → LookupOutcome)
    (mapa : List (String × String)) (row : RowV2) :
    (stepV2 lookup mapa row).1.status = .OK ↔
      ((stepV2 lookup mapa row).1.geometry).isSome = true := by
  unfold stepV2
  dsimp only
  exact (geocodeLoop_feature lookup _ "" []).1

/-- C2: every output feature of either pipeline variant carries exactly one
of the three statuses, and its geometry is a present point exactly when the
status is `OK` (null geometry for the two failure statuses). -/
theorem claim_C2_status_geometry (lookup : String → LookupOutcome) :
    (∀ (st : V1State) (ps : List PropsV1),
       ∀ f ∈ (runV1 lookup st ps).2,
         (f.status = .OK ∨ f.status = .SIN_MATCH ∨ f.status = .SIN_DIRECCION) ∧
         (f.status = .OK ↔ (f.geometry).isSome = true)) ∧
    (∀ (mapa : List (String × String)) (rows : List RowV2),
       ∀ f ∈ (runV2 lookup mapa rows).1,
         (f.status = .OK ∨ f.status = .SIN_MATCH ∨ f.status = .SIN_DIRECCION) ∧
         (f.status = .OK ↔ (f.geometry).isSome = true)) := by
  constructor
  · intro st ps
    induction ps generalizing st with
    | nil => intro f hf; simp [runV1] at hf
    | cons p ps ih =>
      intro f hf
      rw [runV1] at hf
      rcases List.mem_cons.mp hf with rfl | hmem
      · refine ⟨?_, stepV1_feature lookup st p⟩
        cases (stepV1 lookup st p).2.status <;> simp
      · exact ih (stepV1 lookup st p).1 f hmem
  · intro mapa rows
    induction rows with
    | nil => intro f hf; simp [runV2] at hf
    | cons r rs ih =>
      intro f hf
      rw [runV2] at hf
      rcases List.mem_cons.mp hf with rfl | hmem
      · refine ⟨?_, stepV2_feature lookup mapa r⟩
        cases (stepV2 lookup mapa r).1.status <;> simp
      · exact ih f hmem

/-- C2 witness: the property instantiated on a concrete two-record run of
each variant. -/
theorem claim_C2_status_geometry_witness :
    ((stepV2 (fun _ => .hit (1, 2)) [] ⟨"1", "B1", "", "CALLE HIDALGO 5"⟩).1.status = .OK ∨
      (stepV2 (fun _ => .hit (1, 2)) [] ⟨"1", "B1", "", "CALLE HIDALGO 5"⟩).1.status = .SIN_MATCH ∨
      (stepV2 (fun _ => .hit (1, 2)) [] ⟨"1", "B1", "", "CALLE HIDALGO 5"⟩).1.status = .SIN_DIRECCION) ∧
    ((stepV2 (fun _ => .hit (1, 2)) [] ⟨"1", "B1", "", "CALLE HIDALGO 5"⟩).1.status = .OK ↔
      ((stepV2 (fun _ => .hit (1, 2)) [] ⟨"1", "B1", "", "CALLE HIDALGO 5"⟩).1.geometry).isSome = true) :=
  (claim_C2_status_geometry (fun _ => .hit (1, 2))).2 []
    [⟨"1", "B1", "", "CALLE HIDALGO 5"⟩]
    (stepV2 (fun _ => .hit (1, 2)) [] ⟨"1", "B1", "", "CALLE HIDALGO 5"⟩).1
    (by rw [runV2]; exact List.mem_cons_self _ _)

/-! ### C4: empty-input records (code bug in the v2 variant) -/

/-- C4: the claim requires an empty-input record to be classified
`SIN_DIRECCION` without any external invocation.  The v1 variant does so,
but the v2 variant still builds the generic fallback query, invokes the
lookup for it, and reports `SIN_MATCH`: the code contradicts its own
comment (`# Solo procesamos si hay algo de domicilio / localidad`). -/
theorem claim_C4_empty_record_eval :
    ((stepV2 (fun _ => .noHit) [] ⟨"", "", "", ""⟩).1.status = .SIN_MATCH ∧
     (stepV2 (fun _ => .noHit) [] ⟨"", "", "", ""⟩).1.geometry = none ∧
     (stepV2 (fun _ => .noHit) [] ⟨"", "", "", ""⟩).2 = ["Guanajuato, Mexico"]) ∧
    ((stepV1 (fun _ => .noHit) ⟨[], []⟩ ⟨"", "", ""⟩).2.status = .SIN_DIRECCION ∧
     (stepV1 (fun _ => .noHit) ⟨[], []⟩ ⟨"", "", ""⟩).2.geometry = none ∧
     (stepV1 (fun _ => .noHit) ⟨[], []⟩ ⟨"", "", ""⟩).1.callLog = []) := by
  decide

/-! ### C5: records whose lookup raises on every candidate -/

theorem geocodeLoop_all_raised (lookup : String → LookupOutcome) :
    ∀ (qs : List String) (lastQ : String) (log : List String),
      (∀ q ∈ qs, lookup q = .raised) →
      (geocodeLoop lookup qs lastQ log).1 = .SIN_MATCH ∧
      (geocodeLoop lookup qs lastQ log).2.1 = none ∧
      (geocodeLoop lookup qs lastQ log).2.2.1 = lastQ := by
  intro qs
  induction qs with
  | nil => intro lastQ log _; simp [geocodeLoop]
  | cons q qs ih =>
    intro lastQ log h
    rw [geocodeLoop]
    by_cases hq : q = ""
    · rw [if_pos hq]
      exact ih lastQ log (fun q' hq' => h q' (List.mem_cons_of_mem q hq'))
    · rw [if_neg hq, h q (List.mem_cons_self q qs)]
      exact ih lastQ (log ++ [q]) (fun q' hq' => h q' (List.mem_cons_of_mem q hq'))

/-- C5 (amended): when the lookup raises for every candidate of a record,
the v2 variant reports `SIN_MATCH` with null geometry — but the recorded
query is the *empty string* (its initial value), because the exception
handler `continue`s without updating `geocod_query`; only candidates whose
lookup completes without raising update it. -/
theorem claim_C5_all_raised_amended (lookup : String → LookupOutcome)
    (mapa : List (String × String)) (row : RowV2)
    (h : ∀ q ∈ rowQueriesV2 mapa row, lookup q = .raised) :
    (stepV2 lookup mapa row).1.status = .SIN_MATCH ∧
    (stepV2 lookup mapa row).1.geometry = none ∧
    (stepV2 lookup mapa row).1.query = "" := by
  unfold stepV2
  dsimp only
  exact geocodeLoop_all_raised lookup _ "" [] h

/-- C5 witness: a concrete all-raising record. -/
theorem claim_C5_all_raised_amended_witness :
    (stepV2 (fun _ => .raised) [] ⟨"1", "B1", "", "CALLE HIDALGO 5"⟩).1.status = .SIN_MATCH ∧
    (stepV2 (fun _ => .raised) [] ⟨"1", "B1", "", "CALLE HIDALGO 5"⟩).1.geometry = none ∧
    (stepV2 (fun _ => .raised) [] ⟨"1", "B1", "", "CALLE HIDALGO 5"⟩).1.query = "" :=
  claim_C5_all_raised_amended (fun _ => .raised) [] ⟨"1", "B1", "", "CALLE HIDALGO 5"⟩
    (fun _ _ => rfl)

/-- C5 counterexample: on a record whose lookup raises for every candidate,
the final (most general) candidate is `"Guanajuato, Mexico"`, yet the
recorded matched/last-attempted query is `""`, not that candidate — the
claim as stated is false on the code. -/
theorem claim_C5_all_raised_counterexample :
    (rowQueriesV2 [] ⟨"1", "B1", "", "CALLE HIDALGO 5"⟩).getLast? = some "Guanajuato, Mexico" ∧
    (stepV2 (fun _ => .raised) [] ⟨"1", "B1", "", "CALLE HIDALGO 5"⟩).1.query = "" ∧
    (stepV2 (fun _ => .raised) [] ⟨"1", "B1", "", "CALLE HIDALGO 5"⟩).1.query ≠
      "Guanajuato, Mexico" := by
  decide

/-! ### C1: at-most-one external invocation per query string -/

/-- The v1 run invariant: the call log is duplicate-free and every logged
query is cached. -/
def V1Inv (st : V1State) : Prop :=
  st.callLog.Nodup ∧ ∀ q ∈ st.callLog, ((st.cache.lookup q).isSome = true)

theorem stepV1_inv (lookup : String → LookupOutcome) (st : V1State) (p : PropsV1)
    (h : V1Inv st) : V1Inv (stepV1 lookup st p).1 := by
  unfold stepV1
  by_cases hq : optTruthy (build_query p) = false
  · simpa [hq] using h
  · rw [if_neg hq]
    dsimp only
    split
    · exact h
    · rename_i hmiss
      obtain ⟨hnd, hmem⟩ := h
      have hqnot : (build_query p).getD "" ∉ st.callLog := by
        intro hin
        have := hmem _ hin
        rw [hmiss] at this
        simp at this
      constructor
      · simp [List.nodup_append, hnd, hqnot]
      · intro q' hq'
        rw [List.lookup_cons]
        by_cases heq : q' = (build_query p).getD ""
        · simp [heq]
        · have : (q' == (build_query p).getD "") = false := by
            simp [heq]
          rw [this]
          simp only [List.mem_append, List.mem_singleton] at hq'
          rcases hq' with hin | rfl
          · exact hmem q' hin
          · exact absurd rfl heq

theorem runV1_inv (lookup : String → LookupOutcome) :
    ∀ (ps : List PropsV1) (st : V1State), V1Inv st → V1Inv (runV1 lookup st ps).1 := by
  intro ps
  induction ps with
  | nil => intro st h; exact h
  | cons p ps ih =>
    intro st h
    rw [runV1]
    exact ih (stepV1 lookup st p).1 (stepV1_inv lookup st p h)

/-- C1 (amended): in the first variant (`geocodificar_casillas.py`) the
process-lifetime cache guarantees at most one external invocation per exact
query string over the whole run. -/
theorem claim_C1_cache_at_most_once (lookup : String → LookupOutcome)
    (ps : List PropsV1) (q : String) :
    ((runV1 lookup ⟨[], []⟩ ps).1.callLog.count q) ≤ 1 := by
  have h := runV1_inv lookup ps ⟨[], []⟩ ⟨List.nodup_nil, by simp⟩
  exact List.nodup_iff_count_le_one.mp h.1 q

/-- C1 counterexample: the v2 variant has no cache — two records sharing the
candidate `"Guanajuato, Mexico"` cause two external invocations for that
query string, so the claim as stated is false on the code. -/
theorem claim_C1_cache_counterexample :
    ((runV2 (fun _ => .noHit) [] [⟨"1", "B1", "", ""⟩, ⟨"2", "B2", "", ""⟩]).2.count
      "Guanajuato, Mexico") = 2 := by
  decide

/-! ### Counting characters through the normaliser -/

theorem pySplitGo_nil (fuel : Nat) : pySplitGo fuel [] = [] := by
  cases fuel <;> rfl

theorem joinWords_cons (w : List Char) (ws : List (List Char)) :
    joinWords (w :: ws) = w ++ (if ws = [] then [] else ' ' :: joinWords ws) := by
  cases ws with
  | nil => simp [joinWords]
  | cons w' ws' => simp [joinWords]

theorem pySplitGo_eq_nil_all_ws :
    ∀ {fuel : Nat} {l : List Char}, pySplitGo fuel l = [] → l.length ≤ fuel →
      ∀ a ∈ l, isWs a = true := by
  intro fuel
  induction fuel with
  | zero =>
    intro l _ hlen a ha
    have : l = [] := List.length_eq_zero.mp (Nat.le_zero.mp hlen)
    subst this
    cases ha
  | succ f ih =>
    intro l h hlen a ha
    cases l with
    | nil => cases ha
    | cons c cs =>
      simp only [pySplitGo] at h
      by_cases hc : isWs c
      · rw [if_pos hc] at h
        rcases List.mem_cons.mp ha with rfl | ha'
        · exact hc
        · exact ih h (by simp only [List.length_cons] at hlen; omega) a ha'
      · rw [if_neg hc] at h
        cases h

theorem count_joinWords_pySplitGo {x : Char} (hx : isWs x = false) :
    ∀ (fuel : Nat) (l : List Char), l.length ≤ fuel →
      countc x (joinWords (pySplitGo fuel l)) = countc x l := by
  intro fuel
  induction fuel with
  | zero =>
    intro l hlen
    have : l = [] := List.length_eq_zero.mp (Nat.le_zero.mp hlen)
    subst this
    rfl
  | succ f ih =>
    intro l hlen
    cases l with
    | nil => rfl
    | cons c cs =>
      simp only [List.length_cons] at hlen
      simp only [pySplitGo]
      by_cases hc : isWs c
      · rw [if_pos hc]
        have hcx : ¬ c = x := fun he => by rw [he, hx] at hc; cases hc
        rw [ih cs (by omega)]
        simp [countc, List.count_cons, hcx]
      · rw [if_neg hc]
        rw [joinWords_cons]
        have hdw : List.dropWhile (fun d => ¬ isWs d) (c :: cs) =
            List.dropWhile (fun d => ¬ isWs d) cs := by
          rw [List.dropWhile_cons, if_pos (by simpa using hc)]
        have hlenr : (List.dropWhile (fun d => ¬ isWs d) (c :: cs)).length ≤ f := by
          rw [hdw]
          exact Nat.le_trans (length_dropWhile_le' _ cs) (by omega)
        have hsplit :
            List.takeWhile (fun d => ¬ isWs d) (c :: cs) ++
              List.dropWhile (fun d => ¬ isWs d) (c :: cs) = c :: cs :=
          List.takeWhile_append_dropWhile _ _
        have hca : countc x (c :: cs) =
            countc x (List.takeWhile (fun d => ¬ isWs d) (c :: cs)) +
            countc x (List.dropWhile (fun d => ¬ isWs d) (c :: cs)) := by
          conv_lhs => rw [← hsplit]
          simp only [countc, List.count_append]
        by_cases hrest : pySplitGo f (List.dropWhile (fun d => ¬ isWs d) (c :: cs)) = []
        · rw [hrest, if_pos rfl]
          have hrw : countc x (List.dropWhile (fun d => ¬ isWs d) (c :: cs)) = 0 := by
            apply List.count_eq_zero_of_not_mem
            intro hmem
            have := pySplitGo_eq_nil_all_ws hrest hlenr x hmem
            rw [hx] at this
            cases this
          rw [List.append_nil, hca, hrw]
          omega
        · rw [if_neg hrest]
          have hxs : x ≠ ' ' := by
            intro he
            rw [he] at hx
            simp [isWs] at hx
          have hsx : (x == ' ') = false := beq_eq_false_iff_ne.mpr hxs
          have hsx' : (' ' == x) = false := beq_eq_false_iff_ne.mpr (Ne.symm hxs)
          have hstep : countc x (List.takeWhile (fun d => ¬ isWs d) (c :: cs) ++
              ' ' :: joinWords (pySplitGo f (List.dropWhile (fun d => ¬ isWs d) (c :: cs)))) =
              countc x (List.takeWhile (fun d => ¬ isWs d) (c :: cs)) +
              countc x (joinWords (pySplitGo f (List.dropWhile (fun d => ¬ isWs d) (c :: cs)))) := by
            simp [countc, List.count_append, List.count_cons, hsx, hsx']
          rw [hstep, ih _ hlenr, hca]

theorem count_collapseWs {x : Char} (hx : isWs x = false) (l : List Char) :
    countc x (collapseWs l) = countc x l :=
  count_joinWords_pySplitGo hx l.length l (Nat.le_refl _)

theorem lookup_mem_assoc {α β : Type} [BEq α] [LawfulBEq α] :
    ∀ {l : List (α × β)} {k : α} {v : β}, l.lookup k = some v → (k, v) ∈ l := by
  intro l
  induction l with
  | nil => intro k v h; simp [List.lookup] at h
  | cons p ps ih =>
    intro k v h
    cases p with
    | mk k' v' =>
      rw [List.lookup] at h
      by_cases hk : k = k'
      · subst hk
        simp only [beq_self_eq_true] at h
        simp only [Option.some.injEq] at h
        subst h
        exact List.mem_cons_self _ _
      · have : (k == k') = false := by simpa using hk
        rw [this] at h
        exact List.mem_cons_of_mem _ (ih h)

theorem filter_flatMap' (p : Char → Bool) (f : Char → List Char) :
    ∀ l : List Char, (l.flatMap f).filter p = l.flatMap (fun c => (f c).filter p) := by
  intro l
  induction l with
  | nil => rfl
  | cons c cs ih => simp [List.flatMap_cons, List.filter_append, ih]

theorem count_flatMap_pointwise {g : Char → List Char} {x : Char}
    (h : ∀ c, countc x (g c) = countc x [c]) :
    ∀ l : List Char, countc x (l.flatMap g) = countc x l := by
  intro l
  induction l with
  | nil => rfl
  | cons c cs ih =>
    rw [List.flatMap_cons]
    simp only [countc, List.count_append] at ih ⊢
    have hc := h c
    simp only [countc] at hc
    rw [hc]
    simp [List.count_cons]
    omega

theorem comma_nfdChar (c : Char) :
    countc ',' ((nfdChar c).filter (fun d => ¬ isMn d)) = countc ',' [c] := by
  by_cases hc : c = ','
  · subst hc; decide
  · have hbc : (',' == c) = false := beq_eq_false_iff_ne.mpr (fun h => hc h.symm)
    have hcb : (c == ',') = false := beq_eq_false_iff_ne.mpr hc
    have h2 : countc ',' [c] = 0 := by
      simp [countc, List.count_cons, hbc, hcb]
    rw [h2]
    apply List.count_eq_zero_of_not_mem
    intro hmem
    have hmem' : ',' ∈ nfdChar c := List.mem_of_mem_filter hmem
    unfold nfdChar at hmem'
    cases hl : nfdTable.lookup c with
    | none =>
      rw [hl] at hmem'
      simp only [Option.getD_none, List.mem_singleton] at hmem'
      exact hc hmem'.symm
    | some v =>
      rw [hl] at hmem'
      simp only [Option.getD_some] at hmem'
      have hms := lookup_mem_assoc hl
      have hall : ∀ p ∈ nfdTable, ',' ∉ p.snd := by decide
      exact hall _ hms hmem'

theorem comma_strip (s : String) :
    countc ',' (strip_accents_keep_enie s).data = countc ',' s.data := by
  unfold strip_accents_keep_enie
  split
  · rename_i h
    rw [h]
  · dsimp only
    show countc ','
      (pyReplace eniePlaceholderMay ['Ñ']
        (pyReplace eniePlaceholderMin ['ñ']
          ((((pyReplace ['Ñ'] eniePlaceholderMay
              (pyReplace ['ñ'] eniePlaceholderMin (collapseWs s.data))).flatMap
                nfdChar).filter (fun c => ¬ isMn c))))) = countc ',' s.data
    rw [count_pyReplace (by decide) (by decide),
        count_pyReplace (by decide) (by decide),
        filter_flatMap' (fun c => ¬ isMn c) nfdChar,
        count_flatMap_pointwise comma_nfdChar,
        count_pyReplace (by decide) (by decide),
        count_pyReplace (by decide) (by decide),
        count_collapseWs (by decide)]

/-! ### C3: the query builder's tier structure -/

theorem gm_norm : strip_accents_keep_enie "Guanajuato, Mexico" = "Guanajuato, Mexico" := by
  decide

theorem armarRaw_tiers (dc loc muni : String) :
    armarRawQueries dc loc muni =
      optToList (tier1Query dc muni) ++ optToList (tier2Query loc muni) ++
      optToList (tier3Query muni) ++ ["Guanajuato, Mexico"] := by
  unfold armarRawQueries tier1Query tier2Query tier3Query
  dsimp only
  by_cases h1 : dc ≠ ""
  <;> by_cases h2 : (⟨pyStrip muni.data⟩ : String) ≠ ""
  <;> by_cases h3 : (⟨pyStrip loc.data⟩ : String) ≠ ""
  <;> simp [h1, h2, h3, optToList, gm_norm]

theorem comma_gm : countc ',' ("Guanajuato, Mexico" : String).data = 1 := by decide

theorem comma_sep : countc ',' (", " : String).data = 1 := by decide

theorem comma_gmtail : countc ',' (", Guanajuato, Mexico" : String).data = 2 := by decide

theorem tier1_comma {dc muni a : String} (h : tier1Query dc muni = some a) :
    2 ≤ countc ',' a.data := by
  unfold tier1Query at h
  dsimp only at h
  split_ifs at h with hc1 hc2
  · obtain rfl : strip_accents_keep_enie
        (dc ++ ", " ++ (⟨pyStrip muni.data⟩ : String) ++ ", Guanajuato, Mexico") = a :=
      Option.some.inj h
    rw [comma_strip, String.data_append, String.data_append, String.data_append]
    simp only [countc, List.count_append]
    have hs := comma_sep
    have hg := comma_gmtail
    simp only [countc] at hs hg
    omega
  · obtain rfl : strip_accents_keep_enie (dc ++ ", Guanajuato, Mexico") = a :=
      Option.some.inj h
    rw [comma_strip, String.data_append]
    simp only [countc, List.count_append]
    have hg := comma_gmtail
    simp only [countc] at hg
    omega

theorem tier2_comma {loc muni a : String} (h : tier2Query loc muni = some a) :
    2 ≤ countc ',' a.data := by
  unfold tier2Query at h
  dsimp only at h
  split_ifs at h with hc1 hc2
  · obtain rfl : strip_accents_keep_enie
        ((⟨pyStrip loc.data⟩ : String) ++ ", " ++ (⟨pyStrip muni.data⟩ : String) ++
          ", Guanajuato, Mexico") = a :=
      Option.some.inj h
    rw [comma_strip, String.data_append, String.data_append, String.data_append]
    simp only [countc, List.count_append]
    have hs := comma_sep
    have hg := comma_gmtail
    simp only [countc] at hs hg
    omega
  · obtain rfl : strip_accents_keep_enie
        ((⟨pyStrip loc.data⟩ : String) ++ ", Guanajuato, Mexico") = a :=
      Option.some.inj h
    rw [comma_strip, String.data_append]
    simp only [countc, List.count_append]
    have hg := comma_gmtail
    simp only [countc] at hg
    omega

theorem tier3_comma {muni a : String} (h : tier3Query muni = some a) :
    countc ',' a.data = countc ',' (pyStrip muni.data) + 2 := by
  unfold tier3Query at h
  dsimp only at h
  split_ifs at h with hc
  · obtain rfl : strip_accents_keep_enie
        ((⟨pyStrip muni.data⟩ : String) ++ ", Guanajuato, Mexico") = a :=
      Option.some.inj h
    rw [comma_strip, String.data_append]
    simp only [countc, List.count_append]
    have hg := comma_gmtail
    simp only [countc] at hg
    omega

theorem tier3_muni_nonempty {muni a : String} (h : tier3Query muni = some a) :
    (⟨pyStrip muni.data⟩ : String) ≠ "" := by
  unfold tier3Query at h
  dsimp only at h
  split_ifs at h with hc
  exact hc

theorem tier1_ne_tier3 {dc muni a b : String}
    (h1 : tier1Query dc muni = some a) (h3 : tier3Query muni = some b) : a ≠ b := by
  have hm := tier3_muni_nonempty h3
  have hb := tier3_comma h3
  unfold tier1Query at h1
  dsimp only at h1
  split_ifs at h1 with hc1 hc2
  · obtain rfl : strip_accents_keep_enie
        (dc ++ ", " ++ (⟨pyStrip muni.data⟩ : String) ++ ", Guanajuato, Mexico") = a :=
      Option.some.inj h1
    intro heq
    have := congrArg (fun s : String => countc ',' s.data) heq
    dsimp only at this
    rw [comma_strip, String.data_append, String.data_append, String.data_append] at this
    simp only [countc, List.count_append] at this hb
    have hs := comma_sep
    have hg := comma_gmtail
    simp only [countc] at hs hg
    omega
  · exact absurd ⟨hc2, hm⟩ hc1

theorem tier2_ne_tier3 {loc muni a b : String}
    (h2 : tier2Query loc muni = some a) (h3 : tier3Query muni = some b) : a ≠ b := by
  have hm := tier3_muni_nonempty h3
  have hb := tier3_comma h3
  unfold tier2Query at h2
  dsimp only at h2
  split_ifs at h2 with hc1 hc2
  · obtain rfl : strip_accents_keep_enie
        ((⟨pyStrip loc.data⟩ : String) ++ ", " ++ (⟨pyStrip muni.data⟩ : String) ++
          ", Guanajuato, Mexico") = a :=
      Option.some.inj h2
    intro heq
    have := congrArg (fun s : String => countc ',' s.data) heq
    dsimp only at this
    rw [comma_strip, String.data_append, String.data_append, String.data_append] at this
    simp only [countc, List.count_append] at this hb
    have hs := comma_sep
    have hg := comma_gmtail
    simp only [countc] at hs hg
    omega
  · exact absurd ⟨hc2, hm⟩ hc1

theorem tier1_ne_gm {dc muni a : String} (h : tier1Query dc muni = some a) :
    a ≠ "Guanajuato, Mexico" := by
  intro heq
  have := tier1_comma h
  rw [heq] at this
  have hg := comma_gm
  omega

theorem tier2_ne_gm {loc muni a : String} (h : tier2Query loc muni = some a) :
    a ≠ "Guanajuato, Mexico" := by
  intro heq
  have := tier2_comma h
  rw [heq] at this
  have hg := comma_gm
  omega

theorem tier3_ne_gm {muni a : String} (h : tier3Query muni = some a) :
    a ≠ "Guanajuato, Mexico" := by
  intro heq
  have := tier3_comma h
  rw [heq] at this
  have hg := comma_gm
  omega

theorem mem_optToList {o : Option String} {x : String} :
    x ∈ optToList o ↔ o = some x := by
  cases o with
  | none => simp [optToList]
  | some v => simp [optToList, eq_comm]

/-- C3: for every input, `armar_queries_geocod` returns a non-empty list
that is a duplicate-free, order-preserving subsequence of the normalised
tier list (deduplication keeps first occurrences, membership is preserved),
the most general `"Guanajuato, Mexico"` fallback is always present, and the
tiers appear in strict specificity order: the tier-1 (short-address)
candidate precedes the tier-2 (locality) candidate, which precedes the
tier-3 (municipality) candidate, which precedes the fallback. -/
theorem claim_C3_query_builder (dc loc muni : String) :
    armar_queries_geocod dc loc muni ≠ [] ∧
    (armar_queries_geocod dc loc muni).Nodup ∧
    "Guanajuato, Mexico" ∈ armar_queries_geocod dc loc muni ∧
    (∀ q, q ∈ armar_queries_geocod dc loc muni ↔ q ∈ armarRawQueries dc loc muni) ∧
    List.Sublist (armar_queries_geocod dc loc muni) (armarRawQueries dc loc muni) ∧
    (∀ a b, tier1Query dc muni = some a → tier2Query loc muni = some b → a ≠ b →
      List.Sublist [a, b] (armar_queries_geocod dc loc muni)) ∧
    (∀ a b, tier1Query dc muni = some a → tier3Query muni = some b →
      List.Sublist [a, b] (armar_queries_geocod dc loc muni)) ∧
    (∀ a b, tier2Query loc muni = some a → tier3Query muni = some b →
      List.Sublist [a, b] (armar_queries_geocod dc loc muni)) ∧
    (∀ a, tier1Query dc muni = some a →
      List.Sublist [a, "Guanajuato, Mexico"] (armar_queries_geocod dc loc muni)) ∧
    (∀ a, tier2Query loc muni = some a →
      List.Sublist [a, "Guanajuato, Mexico"] (armar_queries_geocod dc loc muni)) ∧
    (∀ a, tier3Query muni = some a →
      List.Sublist [a, "Guanajuato, Mexico"] (armar_queries_geocod dc loc muni)) := by
  have hgm : "Guanajuato, Mexico" ∈ armar_queries_geocod dc loc muni := by
    unfold armar_queries_geocod dedupFirst
    apply mem_dedupSeen.mpr
    refine ⟨?_, by simp⟩
    rw [armarRaw_tiers]
    simp
  refine ⟨?_, nodup_dedupSeen _ _, hgm,
          fun q => ⟨fun h => (mem_dedupSeen.mp h).1,
                    fun h => mem_dedupSeen.mpr ⟨h, by simp⟩⟩,
          dedupSeen_sublist _ [], ?_, ?_, ?_, ?_, ?_, ?_⟩
  · intro h
    rw [h] at hgm
    cases hgm
  · -- tier 1 before tier 2
    intro a b h1 h2 hab
    unfold armar_queries_geocod dedupFirst
    rw [armarRaw_tiers, h1, h2]
    have hsh : optToList (some a) ++ optToList (some b) ++ optToList (tier3Query muni) ++
        ["Guanajuato, Mexico"] =
        ([] : List String) ++ a ::
          ([b] ++ (optToList (tier3Query muni) ++ ["Guanajuato, Mexico"])) := by
      simp [optToList]
    rw [hsh]
    exact pair_sublist_dedupSeen hab [] (by simp) (by simp) (by simp) (by simp) (by simp)
  · -- tier 1 before tier 3
    intro a b h1 h3
    have hab := tier1_ne_tier3 h1 h3
    unfold armar_queries_geocod dedupFirst
    rw [armarRaw_tiers, h1, h3]
    have hsh : optToList (some a) ++ optToList (tier2Query loc muni) ++ optToList (some b) ++
        ["Guanajuato, Mexico"] =
        ([] : List String) ++ a ::
          (optToList (tier2Query loc muni) ++ ([b] ++ ["Guanajuato, Mexico"])) := by
      simp [optToList]
    rw [hsh]
    refine pair_sublist_dedupSeen hab [] (by simp) (by simp) (by simp) (by simp) ?_
    simp
  · -- tier 2 before tier 3
    intro a b h2 h3
    have hab := tier2_ne_tier3 h2 h3
    unfold armar_queries_geocod dedupFirst
    cases ht1 : tier1Query dc muni with
    | none =>
      rw [armarRaw_tiers, ht1, h2, h3]
      have hsh : optToList none ++ optToList (some a) ++ optToList (some b) ++
          ["Guanajuato, Mexico"] =
          ([] : List String) ++ a :: ([b] ++ ["Guanajuato, Mexico"]) := by
        simp [optToList]
      rw [hsh]
      refine pair_sublist_dedupSeen hab [] (by simp) (by simp) (by simp) (by simp) ?_
      simp
    | some v =>
      by_cases hva : v = a
      · subst hva
        rw [armarRaw_tiers, ht1, h2, h3]
        have hsh : optToList (some v) ++ optToList (some v) ++ optToList (some b) ++
            ["Guanajuato, Mexico"] =
            ([] : List String) ++ v :: ([v] ++ ([b] ++ ["Guanajuato, Mexico"])) := by
          simp [optToList]
        rw [hsh]
        refine pair_sublist_dedupSeen hab [] (by simp) (by simp) (by simp) (by simp) ?_
        simp
      · rw [armarRaw_tiers, ht1, h2, h3]
        have hvb : v ≠ b := tier1_ne_tier3 ht1 h3
        have hsh : optToList (some v) ++ optToList (some a) ++ optToList (some b) ++
            ["Guanajuato, Mexico"] =
            [v] ++ a :: ([b] ++ ["Guanajuato, Mexico"]) := by
          simp [optToList]
        rw [hsh]
        refine pair_sublist_dedupSeen hab [v] (by simp) (by simp) ?_ ?_ ?_
        · simp only [List.mem_singleton]
          exact fun h => hva h.symm
        · simp only [List.mem_singleton]
          exact fun h => hvb h.symm
        · simp
  · -- tier 1 before the fallback
    intro a h1
    have hab := tier1_ne_gm h1
    unfold armar_queries_geocod dedupFirst
    rw [armarRaw_tiers, h1]
    have hsh : optToList (some a) ++ optToList (tier2Query loc muni) ++
        optToList (tier3Query muni) ++ ["Guanajuato, Mexico"] =
        ([] : List String) ++ a ::
          (optToList (tier2Query loc muni) ++ optToList (tier3Query muni) ++
            ["Guanajuato, Mexico"]) := by
      simp [optToList]
    rw [hsh]
    refine pair_sublist_dedupSeen hab [] (by simp) (by simp) (by simp) (by simp) ?_
    simp
  · -- tier 2 before the fallback
    intro a h2
    have hab := tier2_ne_gm h2
    unfold armar_queries_geocod dedupFirst
    cases ht1 : tier1Query dc muni with
    | none =>
      rw [armarRaw_tiers, ht1, h2]
      have hsh : optToList none ++ optToList (some a) ++ optToList (tier3Query muni) ++
          ["Guanajuato, Mexico"] =
          ([] : List String) ++ a ::
            (optToList (tier3Query muni) ++ ["Guanajuato, Mexico"]) := by
        simp [optToList]
      rw [hsh]
      refine pair_sublist_dedupSeen hab [] (by simp) (by simp) (by simp) (by simp) ?_
      simp
    | some v =>
      by_cases hva : v = a
      · subst hva
        rw [armarRaw_tiers, ht1, h2]
        have hsh : optToList (some v) ++ optToList (some v) ++ optToList (tier3Query muni) ++
            ["Guanajuato, Mexico"] =
            ([] : List String) ++ v ::
              ([v] ++ (optToList (tier3Query muni) ++ ["Guanajuato, Mexico"])) := by
          simp [optToList]
        rw [hsh]
        refine pair_sublist_dedupSeen hab [] (by simp) (by simp) (by simp) (by simp) ?_
        simp
      · rw [armarRaw_tiers, ht1, h2]
        have hvgm : v ≠ "Guanajuato, Mexico" := tier1_ne_gm ht1
        have hsh : optToList (some v) ++ optToList (some a) ++ optToList (tier3Query muni) ++
            ["Guanajuato, Mexico"] =
            [v] ++ a :: (optToList (tier3Query muni) ++ ["Guanajuato, Mexico"]) := by
          simp [optToList]
        rw [hsh]
        refine pair_sublist_dedupSeen hab [v] (by simp) (by simp) ?_ ?_ ?_
        · simp only [List.mem_singleton]
          exact fun h => hva h.symm
        · simp only [List.mem_singleton]
          exact fun h => hvgm h.symm
        · simp
  · -- tier 3 before the fallback
    intro a h3
    have hab := tier3_ne_gm h3
    unfold armar_queries_geocod dedupFirst
    rw [armarRaw_tiers, h3]
    have hsh : optToList (tier1Query dc muni) ++ optToList (tier2Query loc muni) ++
        optToList (some a) ++ ["Guanajuato, Mexico"] =
        (optToList (tier1Query dc muni) ++ optToList (tier2Query loc muni)) ++
          a :: ["Guanajuato, Mexico"] := by
      simp [optToList]
    rw [hsh]
    refine pair_sublist_dedupSeen hab _ (by simp) (by simp) ?_ ?_ ?_
    · intro hmem
      rcases List.mem_append.mp hmem with hm1 | hm2
      · exact tier1_ne_tier3 (mem_optToList.mp hm1) h3 rfl
      · exact tier2_ne_tier3 (mem_optToList.mp hm2) h3 rfl
    · intro hmem
      rcases List.mem_append.mp hmem with hm1 | hm2
      · exact tier1_ne_gm (mem_optToList.mp hm1) rfl
      · exact tier2_ne_gm (mem_optToList.mp hm2) rfl
    · simp

/-- C3 witness: the concrete record of the spec's Scenario B. -/
theorem claim_C3_query_builder_witness :
    List.Sublist
      ["CALLE HIDALGO 12, LEON, Guanajuato, Mexico", "CENTRO, LEON, Guanajuato, Mexico"]
      (armar_queries_geocod "CALLE HIDALGO 12" "CENTRO" "LEON") :=
  (claim_C3_query_builder "CALLE HIDALGO 12" "CENTRO" "LEON").2.2.2.2.2.1
    "CALLE HIDALGO 12, LEON, Guanajuato, Mexico" "CENTRO, LEON, Guanajuato, Mexico"
    (by decide) (by decide) (by decide)

/-! ### Occurrence propagation through `take`, `drop` and end-stripping -/

theorem occursAt_of_take {pat l : List Char} {n j : Nat}
    (h : occursAt pat (l.take n) j) : occursAt pat l j := by
  unfold occursAt at h ⊢
  rw [List.drop_take] at h
  exact startsWith_of_take h

theorem occursAt_of_drop {pat l : List Char} {k j : Nat}
    (h : occursAt pat (l.drop k) j) : occursAt pat l (k + j) := by
  unfold occursAt at h ⊢
  rwa [List.drop_drop] at h

theorem dropWhile_eq_drop (p : Char → Bool) :
    ∀ l : List Char, l.dropWhile p = l.drop ((l.takeWhile p).length) := by
  intro l
  induction l with
  | nil => rfl
  | cons c cs ih =>
    rw [List.dropWhile_cons, List.takeWhile_cons]
    by_cases hc : p c
    · rw [if_pos hc, if_pos hc, List.length_cons, List.drop_succ_cons, ih]
    · rw [if_neg hc, if_neg hc]
      rfl

theorem rev_dropWhile_take (p : Char → Bool) (m : List Char) :
    ∃ n, (m.reverse.dropWhile p).reverse = m.take n := by
  refine ⟨m.length - ((m.reverse.takeWhile p).length), ?_⟩
  rw [dropWhile_eq_drop p m.reverse]
  rw [List.reverse_drop]
  rw [List.reverse_reverse, List.length_reverse]

theorem occursAt_stripWhile {pat : List Char} {p : Char → Bool} {l : List Char} {j : Nat}
    (h : occursAt pat (stripWhile p l) j) : ∃ i, occursAt pat l i := by
  unfold stripWhile at h
  obtain ⟨n, hn⟩ := rev_dropWhile_take p (l.dropWhile p)
  rw [hn] at h
  have h2 : occursAt pat (l.dropWhile p) j := occursAt_of_take h
  rw [dropWhile_eq_drop] at h2
  exact ⟨_, occursAt_of_drop h2⟩

theorem not_occursAt_take_of_le {pat l : List Char} {i n : Nat} (hp : pat ≠ [])
    (hf : firstOccur pat l = some i) (hn : n ≤ i) :
    ∀ j, ¬ occursAt pat (l.take n) j := by
  intro j hocc
  unfold occursAt at hocc
  rw [List.drop_take] at hocc
  by_cases hij : n ≤ j
  · rw [Nat.sub_eq_zero_of_le hij, List.take_zero, startsWith_nil_false hp] at hocc
    cases hocc
  · have hoc : occursAt pat l j := startsWith_of_take hocc
    exact (firstOccur_spec hf).2 j (by omega) hoc

/-! ### The `domicilio_corto` cut position is the minimum over all markers -/

theorem foldMin_le_acc (base : List Char) :
    ∀ (ms : List String) (acc : Nat),
      (ms.foldl (fun pos mk =>
        match firstOccur mk.data base with
        | some i => if i < pos then i else pos
        | none => pos) acc) ≤ acc := by
  intro ms
  induction ms with
  | nil => intro acc; exact Nat.le_refl _
  | cons m rest ih =>
    intro acc
    rw [List.foldl_cons]
    cases hfo : firstOccur m.data base with
    | none => simpa [hfo] using ih acc
    | some i =>
      simp only [hfo]
      by_cases hlt : i < acc
      · rw [if_pos hlt]
        exact Nat.le_trans (ih i) (Nat.le_of_lt hlt)
      · rw [if_neg hlt]
        exact ih acc

theorem foldMin_le_found (base : List Char) :
    ∀ (ms : List String) (acc : Nat) (mk : String) (i₀ : Nat),
      mk ∈ ms → firstOccur mk.data base = some i₀ →
      (ms.foldl (fun pos mk =>
        match firstOccur mk.data base with
        | some i => if i < pos then i else pos
        | none => pos) acc) ≤ i₀ := by
  intro ms
  induction ms with
  | nil => intro acc mk i₀ hmem; cases hmem
  | cons m rest ih =>
    intro acc mk i₀ hmem hfo
    rw [List.foldl_cons]
    rcases List.mem_cons.mp hmem with rfl | hmem'
    · simp only [hfo]
      by_cases hlt : i₀ < acc
      · rw [if_pos hlt]
        exact foldMin_le_acc base rest i₀
      · rw [if_neg hlt]
        exact Nat.le_trans (foldMin_le_acc base rest acc) (Nat.le_of_not_lt hlt)
    · cases hfo' : firstOccur m.data base with
      | none => simpa [hfo'] using ih _ mk i₀ hmem' hfo
      | some i =>
        simp only [hfo']
        exact ih _ mk i₀ hmem' hfo

/-! ### C6: noise-phrase truncation -/

theorem cutAtFirstListed_eq :
    ∀ (ms : List (List Char)) (txt : List Char),
      cutAtFirstListed ms txt =
        match firstListedHit ms txt with
        | some (_, i) => txt.take i
        | none => txt := by
  intro ms
  induction ms with
  | nil => intro txt; rfl
  | cons m rest ih =>
    intro txt
    rw [cutAtFirstListed, firstListedHit]
    cases hfo : firstOccur m txt with
    | some i => rfl
    | none => exact ih txt

theorem firstListedHit_spec :
    ∀ {ms : List (List Char)} {txt m : List Char} {i : Nat},
      firstListedHit ms txt = some (m, i) →
      m ∈ ms ∧ firstOccur m txt = some i := by
  intro ms
  induction ms with
  | nil => intro txt m i h; cases h
  | cons m' rest ih =>
    intro txt m i h
    rw [firstListedHit] at h
    cases hfo : firstOccur m' txt with
    | some i' =>
      rw [hfo] at h
      obtain ⟨rfl, rfl⟩ : m' = m ∧ i' = i := by
        have := Option.some.inj h
        exact ⟨congrArg Prod.fst this, congrArg Prod.snd this⟩
      exact ⟨List.mem_cons_self _ _, hfo⟩
    | none =>
      rw [hfo] at h
      obtain ⟨hm, hf⟩ := ih h
      exact ⟨List.mem_cons_of_mem _ hm, hf⟩

/-- C6 (amended): the two truncation functions behave differently.
`domicilio_corto` (preparation script) cuts before the earliest-position
marker, and its result never contains any configured marker.
`limpiar_frases_basura`'s cut stage truncates at the first occurrence of the
first phrase *in configured list order* that occurs anywhere in the text
(not the earliest-position phrase), discards everything from that point on,
and the truncated text contains no further occurrence of that governing
phrase — but may retain other configured phrases. -/
theorem claim_C6_truncation_amended :
    (∀ (txt : String), ∀ mk ∈ marcadores, ∀ j,
      ¬ occursAt mk.data (domicilio_corto txt).data j) ∧
    (∀ (dom : String) (m : List Char) (i : Nat),
      firstListedHit (cortes.map String.data) (pyUpper dom.data) = some (m, i) →
      firstOccur m (pyUpper dom.data) = some i ∧
      cutAtFirstListed (cortes.map String.data) (pyUpper dom.data) =
        (pyUpper dom.data).take i ∧
      ∀ j, ¬ occursAt m (cutAtFirstListed (cortes.map String.data) (pyUpper dom.data)) j) ∧
    (∀ (dom : String),
      firstListedHit (cortes.map String.data) (pyUpper dom.data) = none →
      cutAtFirstListed (cortes.map String.data) (pyUpper dom.data) = pyUpper dom.data) := by
  refine ⟨?_, ?_, ?_⟩
  · intro txt mk hmk j hocc
    have hmknil : mk.data ≠ [] := by
      have hall : ∀ m ∈ marcadores, m.data ≠ [] := by decide
      exact hall mk hmk
    unfold domicilio_corto at hocc
    split at hocc
    · simp only [String.data] at hocc
      unfold occursAt at hocc
      rw [List.drop_nil, startsWith_nil_false hmknil] at hocc
      cases hocc
    · dsimp only at hocc
      have hocc1 : occursAt mk.data
          (pyStripSet ",.;- ".data
            (pyStrip ((' ' :: txt.data ++ [' ']).take
              (marcadores.foldl (fun pos mk =>
                match firstOccur mk.data (' ' :: txt.data ++ [' ']) with
                | some i => if i < pos then i else pos
                | none => pos) (' ' :: txt.data ++ [' ']).length)))) j := hocc
      obtain ⟨j₂, hocc2⟩ := occursAt_stripWhile hocc1
      obtain ⟨j₃, hocc3⟩ := occursAt_stripWhile hocc2
      cases hfo : firstOccur mk.data (' ' :: txt.data ++ [' ']) with
      | none =>
        exact firstOccur_none_spec hmknil hfo j₃ (occursAt_of_take hocc3)
      | some i₀ =>
        refine not_occursAt_take_of_le hmknil hfo ?_ j₃ hocc3
        exact foldMin_le_found _ marcadores _ mk i₀ hmk hfo
  · intro dom m i hhit
    obtain ⟨hmem, hfo⟩ := firstListedHit_spec hhit
    have hmnil : m ≠ [] := by
      have hall : ∀ m' ∈ cortes.map String.data, m' ≠ [] := by decide
      exact hall m hmem
    refine ⟨hfo, ?_, ?_⟩
    · rw [cutAtFirstListed_eq, hhit]
    · rw [cutAtFirstListed_eq, hhit]
      exact not_occursAt_take_of_le hmnil hfo (Nat.le_refl _)
  · intro dom hnone
    rw [cutAtFirstListed_eq, hnone]

/-- C6 witness: a concrete text where the governing phrase is found and cut. -/
theorem claim_C6_truncation_amended_witness :
    firstOccur " FRENTE A ".data (pyUpper "CALLE X FRENTE A PLAZA".data) = some 7 ∧
    cutAtFirstListed (cortes.map String.data) (pyUpper "CALLE X FRENTE A PLAZA".data) =
      (pyUpper "CALLE X FRENTE A PLAZA".data).take 7 ∧
    ∀ j, ¬ occursAt " FRENTE A ".data
      (cutAtFirstListed (cortes.map String.data) (pyUpper "CALLE X FRENTE A PLAZA".data)) j :=
  claim_C6_truncation_amended.2.1 "CALLE X FRENTE A PLAZA" " FRENTE A ".data 7 (by decide)

/-- C6 counterexample: `limpiar_frases_basura` does *not* truncate at the
earliest-position noise phrase, and its output can contain a configured
noise phrase: on this input the earliest phrase is `" FRENTE A "` (index 7)
but the cut happens at `" A 50 METROS"` (index 22, earlier in the list),
leaving `" FRENTE A "` in the returned text. -/
theorem claim_C6_truncation_counterexample :
    limpiar_frases_basura "CALLE X FRENTE A PLAZA A 50 METROS" = "CALLE X FRENTE A PLAZA" ∧
    occursIn " FRENTE A ".data
      (limpiar_frases_basura "CALLE X FRENTE A PLAZA A 50 METROS").data = true ∧
    " FRENTE A " ∈ cortes ∧
    firstOccur " FRENTE A ".data
      (pyUpper "CALLE X FRENTE A PLAZA A 50 METROS".data) = some 7 ∧
    firstOccur " A 50 METROS".data
      (pyUpper "CALLE X FRENTE A PLAZA A 50 METROS".data) = some 22 := by
  decide

/-! ### `pySplit` equations and membership lemmas -/

theorem pySplitGo_fuel_inv :
    ∀ (f₁ : Nat) {f₂ : Nat} {l : List Char}, l.length ≤ f₁ → l.length ≤ f₂ →
      pySplitGo f₁ l = pySplitGo f₂ l := by
  intro f₁
  induction f₁ with
  | zero =>
    intro f₂ l h₁ _
    have : l = [] := List.length_eq_zero.mp (Nat.le_zero.mp h₁)
    subst this
    rw [pySplitGo_nil, pySplitGo_nil]
  | succ f₁' ih =>
    intro f₂ l h₁ h₂
    cases l with
    | nil => rw [pySplitGo_nil, pySplitGo_nil]
    | cons c cs =>
      cases f₂ with
      | zero => simp at h₂
      | succ f₂' =>
        simp only [List.length_cons] at h₁ h₂
        simp only [pySplitGo]
        by_cases hc : isWs c
        · rw [if_pos hc, if_pos hc]
          exact ih (by omega) (by omega)
        · rw [if_neg hc, if_neg hc]
          congr 1
          have hdw : List.dropWhile (fun d => ¬ isWs d) (c :: cs) =
              List.dropWhile (fun d => ¬ isWs d) cs := by
            rw [List.dropWhile_cons, if_pos (by simpa using hc)]
          have hlen : (List.dropWhile (fun d => ¬ isWs d) (c :: cs)).length ≤ cs.length := by
            rw [hdw]; exact length_dropWhile_le' _ cs
          exact ih (by omega) (by omega)

theorem pySplit_cons_ws {c : Char} (cs : List Char) (hc : isWs c = true) :
    pySplit (c :: cs) = pySplit cs := by
  show pySplitGo (cs.length + 1) (c :: cs) = pySplitGo cs.length cs
  simp only [pySplitGo]
  rw [if_pos hc]

theorem pySplit_cons_word {c : Char} (cs : List Char) (hc : isWs c = false) :
    pySplit (c :: cs) =
      ((c :: cs).takeWhile (fun d => ¬ isWs d)) ::
        pySplit ((c :: cs).dropWhile (fun d => ¬ isWs d)) := by
  show pySplitGo (cs.length + 1) (c :: cs) = _
  simp only [pySplitGo]
  rw [if_neg (by simp [hc])]
  congr 1
  apply pySplitGo_fuel_inv
  · have hdw : List.dropWhile (fun d => ¬ isWs d) (c :: cs) =
        List.dropWhile (fun d => ¬ isWs d) cs := by
      rw [List.dropWhile_cons, if_pos (by simp [hc])]
    rw [hdw]
    exact length_dropWhile_le' _ cs
  · exact Nat.le_refl _

theorem mem_takeWhile {p : Char → Bool} :
    ∀ {l : List Char} {a : Char}, a ∈ l.takeWhile p → a ∈ l := by
  intro l
  induction l with
  | nil => intro a h; simpa using h
  | cons c cs ih =>
    intro a h
    rw [List.takeWhile_cons] at h
    by_cases hc : p c
    · rw [if_pos hc] at h
      rcases List.mem_cons.mp h with rfl | h'
      · exact List.mem_cons_self _ _
      · exact List.mem_cons_of_mem _ (ih h')
    · rw [if_neg hc] at h
      cases h

theorem takeWhile_prop {p : Char → Bool} :
    ∀ {l : List Char} {a : Char}, a ∈ l.takeWhile p → p a = true := by
  intro l
  induction l with
  | nil => intro a h; simpa using h
  | cons c cs ih =>
    intro a h
    rw [List.takeWhile_cons] at h
    by_cases hc : p c
    · rw [if_pos hc] at h
      rcases List.mem_cons.mp h with rfl | h'
      · exact hc
      · exact ih h'
    · rw [if_neg hc] at h
      cases h

theorem mem_dropWhile {p : Char → Bool} {l : List Char} {a : Char}
    (h : a ∈ l.dropWhile p) : a ∈ l := by
  rw [dropWhile_eq_drop] at h
  exact List.drop_subset _ _ h

theorem mem_stripWhile {p : Char → Bool} {l : List Char} {a : Char}
    (h : a ∈ stripWhile p l) : a ∈ l := by
  unfold stripWhile at h
  rw [List.mem_reverse] at h
  have h2 := mem_dropWhile h
  rw [List.mem_reverse] at h2
  exact mem_dropWhile h2

theorem mem_joinWords_pySplitGo :
    ∀ {fuel : Nat} {l : List Char} {a : Char},
      a ∈ joinWords (pySplitGo fuel l) → a ∈ l ∨ a = ' ' := by
  intro fuel
  induction fuel with
  | zero =>
    intro l a h
    cases l with
    | nil => rw [pySplitGo_nil] at h; cases h
    | cons c cs => cases h
  | succ f ih =>
    intro l a h
    cases l with
    | nil => rw [pySplitGo_nil] at h; cases h
    | cons c cs =>
      simp only [pySplitGo] at h
      by_cases hc : isWs c
      · rw [if_pos hc] at h
        rcases ih h with h' | h'
        · exact Or.inl (List.mem_cons_of_mem _ h')
        · exact Or.inr h'
      · rw [if_neg hc, joinWords_cons] at h
        rcases List.mem_append.mp h with hw | hrest
        · exact Or.inl (mem_takeWhile hw)
        · by_cases hnil : pySplitGo f (List.dropWhile (fun d => ¬ isWs d) (c :: cs)) = []
          · rw [hnil] at hrest
            simp at hrest
          · rw [if_neg hnil] at hrest
            rcases List.mem_cons.mp hrest with rfl | hrest'
            · exact Or.inr rfl
            · rcases ih hrest' with h' | h'
              · exact Or.inl (mem_dropWhile h')
              · exact Or.inr h'

theorem mem_collapseWs {l : List Char} {a : Char}
    (h : a ∈ collapseWs l) : a ∈ l ∨ a = ' ' :=
  mem_joinWords_pySplitGo h

theorem mem_cutAtFirstListed {ms : List (List Char)} {txt : List Char} {a : Char}
    (h : a ∈ cutAtFirstListed ms txt) : a ∈ txt := by
  rw [cutAtFirstListed_eq] at h
  cases hhit : firstListedHit ms txt with
  | none => rw [hhit] at h; exact h
  | some p =>
    rw [hhit] at h
    exact List.take_subset _ _ h

theorem pyUpperChar_idem (c : Char) : pyUpperChar (pyUpperChar c) = pyUpperChar c := by
  unfold pyUpperChar
  cases hl : upperTable.lookup c with
  | none => simp [hl]
  | some v =>
    have hv : upperTable.lookup v = none := by
      have hmem := lookup_mem_assoc hl
      have hall : ∀ p ∈ upperTable, upperTable.lookup p.2 = none := by decide
      exact hall _ hmem
    simp [hl, hv]

theorem map_eq_self_of_stable {f : Char → Char} :
    ∀ {l : List Char}, (∀ c ∈ l, f c = c) → l.map f = l := by
  intro l
  induction l with
  | nil => intro _; rfl
  | cons c cs ih =>
    intro h
    rw [List.map_cons, h c (List.mem_cons_self _ _),
        ih (fun d hd => h d (List.mem_cons_of_mem _ hd))]

/-! ### Canonical whitespace form: `collapseWs` outputs and fixed points -/

theorem isWs_space : isWs ' ' = true := by decide

theorem noDouble_cons_tail {c : Char} {cs : List Char}
    (h : noDouble (c :: cs) = true) : noDouble cs = true := by
  cases cs with
  | nil => rfl
  | cons d rest =>
    simp only [noDouble, Bool.and_eq_true] at h
    exact h.2

theorem noDouble_drop : ∀ (k : Nat) {l : List Char},
    noDouble l = true → noDouble (l.drop k) = true := by
  intro k
  induction k with
  | zero => intro l h; exact h
  | succ k' ih =>
    intro l h
    cases l with
    | nil => exact h
    | cons c cs =>
      rw [List.drop_succ_cons]
      exact ih (noDouble_cons_tail h)

theorem noDouble_take : ∀ {l : List Char} (n : Nat),
    noDouble l = true → noDouble (l.take n) = true := by
  intro l
  induction l with
  | nil => intro n _; rw [List.take_nil]; rfl
  | cons c cs ih =>
    intro n h
    cases n with
    | zero => rfl
    | succ n' =>
      rw [List.take_succ_cons]
      cases cs with
      | nil => rw [List.take_nil]; rfl
      | cons d rest =>
        cases n' with
        | zero => rfl
        | succ n'' =>
          rw [List.take_succ_cons]
          have hnd := h
          simp only [noDouble, Bool.and_eq_true] at hnd
          have htail : noDouble (d :: List.take n'' rest) = true := by
            have := ih (n'' + 1) (noDouble_cons_tail h)
            rwa [List.take_succ_cons] at this
          simp only [noDouble, Bool.and_eq_true]
          exact ⟨hnd.1, htail⟩

theorem noDouble_of_all_nonws :
    ∀ {l : List Char}, (∀ a ∈ l, isWs a = false) → noDouble l = true := by
  intro l
  induction l with
  | nil => intro _; rfl
  | cons c cs ih =>
    intro h
    cases cs with
    | nil => rfl
    | cons d rest =>
      simp only [noDouble, Bool.and_eq_true]
      refine ⟨?_, ih (fun a ha => h a (List.mem_cons_of_mem _ ha))⟩
      rw [h c (List.mem_cons_self _ _)]
      rfl

theorem noDouble_word_append :
    ∀ {w v : List Char}, (∀ a ∈ w, isWs a = false) → noDouble v = true →
      noDouble (w ++ v) = true := by
  intro w
  induction w with
  | nil => intro v _ hv; exact hv
  | cons a w' ih =>
    intro v hw hv
    rw [List.cons_append]
    have htail : noDouble (w' ++ v) = true :=
      ih (fun b hb => hw b (List.mem_cons_of_mem _ hb)) hv
    cases hwv : w' ++ v with
    | nil => rfl
    | cons e t =>
      rw [hwv] at htail
      simp only [noDouble, Bool.and_eq_true]
      refine ⟨?_, htail⟩
      rw [hw a (List.mem_cons_self _ _)]
      rfl

theorem dropWhile_head_not {p : Char → Bool} :
    ∀ {l : List Char} {c : Char} {cs : List Char},
      l.dropWhile p = c :: cs → p c = false := by
  intro l
  induction l with
  | nil => intro c cs h; cases h
  | cons d ds ih =>
    intro c cs h
    rw [List.dropWhile_cons] at h
    by_cases hd : p d
    · rw [if_pos hd] at h; exact ih h
    · rw [if_neg hd] at h
      injection h with h1 _
      subst h1
      simpa using hd

theorem stripWhile_head {p : Char → Bool} {y : List Char} {c : Char} {cs : List Char}
    (h : stripWhile p y = c :: cs) : p c = false := by
  obtain ⟨n, hn⟩ := rev_dropWhile_take p (y.dropWhile p)
  unfold stripWhile at h
  rw [hn] at h
  cases hm : y.dropWhile p with
  | nil => rw [hm] at h; simp at h
  | cons e es =>
    rw [hm] at h
    cases n with
    | zero => simp at h
    | succ n' =>
      rw [List.take_succ_cons] at h
      injection h with h1 _
      subst h1
      exact dropWhile_head_not hm

theorem stripWhile_last {p : Char → Bool} {y : List Char} {c : Char}
    (h : (stripWhile p y).getLast? = some c) : p c = false := by
  unfold stripWhile at h
  rw [List.getLast?_reverse] at h
  cases hu : (y.dropWhile p).reverse.dropWhile p with
  | nil => rw [hu] at h; cases h
  | cons e es =>
    rw [hu] at h
    have : e = c := by
      simpa using h
    subst this
    exact dropWhile_head_not hu

theorem pySplitGo_words :
    ∀ {fuel : Nat} {l w : List Char}, w ∈ pySplitGo fuel l →
      w ≠ [] ∧ ∀ a ∈ w, isWs a = false := by
  intro fuel
  induction fuel with
  | zero =>
    intro l w h
    cases l with
    | nil => rw [pySplitGo_nil] at h; cases h
    | cons c cs => cases h
  | succ f ih =>
    intro l w h
    cases l with
    | nil => rw [pySplitGo_nil] at h; cases h
    | cons c cs =>
      simp only [pySplitGo] at h
      by_cases hc : isWs c
      · rw [if_pos hc] at h
        exact ih h
      · rw [if_neg hc] at h
        rcases List.mem_cons.mp h with rfl | h'
        · constructor
          · rw [List.takeWhile_cons, if_pos (by simp [hc])]
            simp
          · intro a ha
            have := takeWhile_prop ha
            simpa using this
        · exact ih h'

theorem mem_joinWords :
    ∀ {ws : List (List Char)} {a : Char},
      a ∈ joinWords ws → (∃ w ∈ ws, a ∈ w) ∨ a = ' ' := by
  intro ws
  induction ws with
  | nil => intro a h; cases h
  | cons w rest ih =>
    intro a h
    rw [joinWords_cons] at h
    rcases List.mem_append.mp h with hw | hr
    · exact Or.inl ⟨w, List.mem_cons_self _ _, hw⟩
    · by_cases hnil : rest = []
      · rw [if_pos hnil] at hr; cases hr
      · rw [if_neg hnil] at hr
        rcases List.mem_cons.mp hr with rfl | hr'
        · exact Or.inr rfl
        · rcases ih hr' with ⟨w', hw', ha⟩ | hsp
          · exact Or.inl ⟨w', List.mem_cons_of_mem _ hw', ha⟩
          · exact Or.inr hsp

theorem joinWords_ne_nil {ws : List (List Char)}
    (h : ∀ w ∈ ws, w ≠ []) (hne : ws ≠ []) : joinWords ws ≠ [] := by
  cases ws with
  | nil => exact absurd rfl hne
  | cons w rest =>
    cases rest with
    | nil => exact h w (List.mem_cons_self _ _)
    | cons w' r =>
      show w ++ ' ' :: joinWords (w' :: r) ≠ []
      simp

theorem joinWords_head_nonWs {ws : List (List Char)}
    (h : ∀ w ∈ ws, w ≠ [] ∧ ∀ a ∈ w, isWs a = false) :
    headNonWs (joinWords ws) = true := by
  cases ws with
  | nil => rfl
  | cons w rest =>
    obtain ⟨hne, hnws⟩ := h w (List.mem_cons_self _ _)
    rw [joinWords_cons]
    cases w with
    | nil => exact absurd rfl hne
    | cons a w' =>
      rw [List.cons_append]
      show (!isWs a) = true
      rw [hnws a (List.mem_cons_self _ _)]
      rfl

theorem getLast?_mem' : ∀ {l : List Char} {c : Char}, l.getLast? = some c → c ∈ l := by
  intro l
  induction l with
  | nil => intro c h; cases h
  | cons a l' ih =>
    intro c h
    cases l' with
    | nil =>
      simp only [List.getLast?_singleton, Option.some.injEq] at h
      subst h
      exact List.mem_cons_self _ _
    | cons b l'' =>
      rw [List.getLast?_cons_cons] at h
      exact List.mem_cons_of_mem _ (ih h)

theorem joinWords_last_nonWs :
    ∀ {ws : List (List Char)},
      (∀ w ∈ ws, w ≠ [] ∧ ∀ a ∈ w, isWs a = false) →
      lastNonWs (joinWords ws) = true := by
  intro ws
  induction ws with
  | nil => intro _; rfl
  | cons w rest ih =>
    intro h
    cases rest with
    | nil =>
      show lastNonWs w = true
      unfold lastNonWs
      cases hL : w.getLast? with
      | none => rfl
      | some c =>
        show (!isWs c) = true
        rw [(h w (List.mem_cons_self _ _)).2 c (getLast?_mem' hL)]
        rfl
    | cons w' r =>
      have hrest : ∀ v ∈ w' :: r, v ≠ [] ∧ ∀ a ∈ v, isWs a = false :=
        fun v hv => h v (List.mem_cons_of_mem _ hv)
      have hJ : joinWords (w' :: r) ≠ [] :=
        joinWords_ne_nil (fun v hv => (hrest v hv).1) (by simp)
      obtain ⟨c, hc⟩ : ∃ c, (joinWords (w' :: r)).getLast? = some c := by
        cases hcase : (joinWords (w' :: r)).getLast? with
        | none => exact absurd (List.getLast?_eq_none_iff.mp hcase) hJ
        | some c => exact ⟨c, rfl⟩
      have hlc : (w ++ ' ' :: joinWords (w' :: r)).getLast? = some c := by
        rw [List.getLast?_append]
        have h1 : (' ' :: joinWords (w' :: r)).getLast? = some c := by
          rw [show (' ' :: joinWords (w' :: r)) = [' '] ++ joinWords (w' :: r) from rfl,
              List.getLast?_append, hc]
          rfl
        rw [h1]
        rfl
      show lastNonWs (w ++ ' ' :: joinWords (w' :: r)) = true
      unfold lastNonWs
      rw [hlc]
      have := ih hrest
      unfold lastNonWs at this
      rw [hc] at this
      exact this

theorem joinWords_allWsSpace {ws : List (List Char)}
    (h : ∀ w ∈ ws, w ≠ [] ∧ ∀ a ∈ w, isWs a = false) :
    allWsSpace (joinWords ws) = true := by
  unfold allWsSpace
  rw [List.all_eq_true]
  intro a ha
  rcases mem_joinWords ha with ⟨w, hw, haw⟩ | rfl
  · rw [(h w hw).2 a haw]
    rfl
  · simp

theorem noDouble_joinWords :
    ∀ {ws : List (List Char)},
      (∀ w ∈ ws, w ≠ [] ∧ ∀ a ∈ w, isWs a = false) →
      noDouble (joinWords ws) = true := by
  intro ws
  induction ws with
  | nil => intro _; rfl
  | cons w rest ih =>
    intro h
    cases rest with
    | nil =>
      show noDouble w = true
      exact noDouble_of_all_nonws (h w (List.mem_cons_self _ _)).2
    | cons w' r =>
      have hrest : ∀ v ∈ w' :: r, v ≠ [] ∧ ∀ a ∈ v, isWs a = false :=
        fun v hv => h v (List.mem_cons_of_mem _ hv)
      show noDouble (w ++ ' ' :: joinWords (w' :: r)) = true
      apply noDouble_word_append (h w (List.mem_cons_self _ _)).2
      have hhead := joinWords_head_nonWs hrest
      cases hJ : joinWords (w' :: r) with
      | nil => rfl
      | cons j js =>
        rw [hJ] at hhead
        have hj : isWs j = false := by simpa [headNonWs] using hhead
        simp only [noDouble, Bool.and_eq_true]
        constructor
        · rw [hj]; simp
        · have := ih hrest
          rwa [hJ] at this

theorem canon_collapseWs (z : List Char) :
    allWsSpace (collapseWs z) = true ∧ noDouble (collapseWs z) = true ∧
    headNonWs (collapseWs z) = true ∧ lastNonWs (collapseWs z) = true := by
  have hgood : ∀ w ∈ pySplit z, w ≠ [] ∧ ∀ a ∈ w, isWs a = false :=
    fun w hw => pySplitGo_words hw
  exact ⟨joinWords_allWsSpace hgood, noDouble_joinWords hgood,
         joinWords_head_nonWs hgood, joinWords_last_nonWs hgood⟩

theorem collapse_of_canon :
    ∀ (n : Nat) (l : List Char), l.length ≤ n →
      allWsSpace l = true → noDouble l = true → headNonWs l = true →
      lastNonWs l = true → collapseWs l = l := by
  intro n
  induction n with
  | zero =>
    intro l hlen _ _ _ _
    have : l = [] := List.length_eq_zero.mp (Nat.le_zero.mp hlen)
    subst this
    rfl
  | succ n ih =>
    intro l hlen hall hnd hhead hlast
    cases l with
    | nil => rfl
    | cons c cs =>
      have hc : isWs c = false := by simpa [headNonWs] using hhead
      show joinWords (pySplit (c :: cs)) = c :: cs
      rw [pySplit_cons_word cs hc]
      have hsplit := List.takeWhile_append_dropWhile (fun d => ¬ isWs d) (c :: cs)
      cases hrest : List.dropWhile (fun d => ¬ isWs d) (c :: cs) with
      | nil =>
        rw [hrest, List.append_nil] at hsplit
        show joinWords [List.takeWhile (fun d => ¬ isWs d) (c :: cs)] = c :: cs
        rw [joinWords]
        exact hsplit
      | cons r rest' =>
        have hrws : isWs r = true := by
          have := dropWhile_head_not hrest
          simpa using this
        have hrmem : r ∈ c :: cs :=
          mem_dropWhile (hrest ▸ List.mem_cons_self r rest')
        have hrsp : r = ' ' := by
          have := (List.all_eq_true.mp hall) r hrmem
          simp only [hrws, Bool.not_true, Bool.false_or, beq_iff_eq] at this
          exact this
        subst hrsp
        have hk := dropWhile_eq_drop (fun d => ¬ isWs d) (c :: cs)
        rw [hrest] at hk
        -- hk : ' ' :: rest' = (c :: cs).drop k
        have hndrest : noDouble (' ' :: rest') = true := by
          rw [hk]
          exact noDouble_drop _ hnd
        cases rest' with
        | nil =>
          exfalso
          rw [hrest] at hsplit
          have hlastl : (c :: cs).getLast? = some ' ' := by
            rw [← hsplit]
            exact List.getLast?_concat _
          unfold lastNonWs at hlast
          rw [hlastl] at hlast
          simp [isWs] at hlast
        | cons d rest'' =>
          have hdnw : isWs d = false := by
            simp only [noDouble, Bool.and_eq_true, isWs_space, Bool.true_and] at hndrest
            rcases hndrest with ⟨h1, _⟩
            simpa using h1
          rw [pySplit_cons_ws _ isWs_space]
          -- the remainder (d :: rest'') is canonical and shorter
          have hw1 : List.takeWhile (fun d => ¬ isWs d) (c :: cs) =
              c :: List.takeWhile (fun d => ¬ isWs d) cs := by
            rw [List.takeWhile_cons, if_pos (by simp [hc])]
          have hlen' : (d :: rest'').length ≤ n := by
            have := congrArg List.length hsplit
            rw [hrest, hw1] at this
            simp only [List.length_append, List.length_cons] at this ⊢
            simp only [List.length_cons] at hlen
            omega
          have hsub : ∀ a ∈ d :: rest'', a ∈ c :: cs := by
            intro a ha
            apply mem_dropWhile (p := fun d => ¬ isWs d)
            rw [hrest]
            exact List.mem_cons_of_mem _ ha
          have hall' : allWsSpace (d :: rest'') = true := by
            unfold allWsSpace
            rw [List.all_eq_true]
            exact fun a ha => (List.all_eq_true.mp hall) a (hsub a ha)
          have hnd' : noDouble (d :: rest'') = true := noDouble_cons_tail hndrest
          have hhead' : headNonWs (d :: rest'') = true := by
            simp [headNonWs, hdnw]
          have hlast' : lastNonWs (d :: rest'') = true := by
            unfold lastNonWs at hlast ⊢
            have hgl : (c :: cs).getLast? = (d :: rest'').getLast? := by
              rw [← hsplit, hrest, List.getLast?_append]
              rw [show (' ' :: d :: rest'') = [' '] ++ (d :: rest'') from rfl,
                  List.getLast?_append]
              obtain ⟨x, hx⟩ : ∃ x, (d :: rest'').getLast? = some x := by
                cases hcase : (d :: rest'').getLast? with
                | none => exact absurd (List.getLast?_eq_none_iff.mp hcase) (by simp)
                | some x => exact ⟨x, rfl⟩
              rw [hx]
              rfl
            rw [← hgl]
            exact hlast
          have hIH := ih (d :: rest'') hlen' hall' hnd' hhead' hlast'
          have hne : pySplit (d :: rest'') ≠ [] := by
            rw [pySplit_cons_word _ hdnw]
            simp
          rw [joinWords_cons, if_neg hne]
          show List.takeWhile (fun d => ¬ isWs d) (c :: cs) ++
              ' ' :: joinWords (pySplit (d :: rest'')) = c :: cs
          have hIH' : joinWords (pySplit (d :: rest'')) = d :: rest'' := hIH
          rw [hIH']
          rw [hrest] at hsplit
          exact hsplit

theorem dropWhile_idem (p : Char → Bool) (l : List Char) :
    (l.dropWhile p).dropWhile p = l.dropWhile p := by
  cases hm : l.dropWhile p with
  | nil => rfl
  | cons c cs =>
    rw [List.dropWhile_cons, if_neg]
    rw [dropWhile_head_not hm]
    simp

theorem stripWhile_idem (p : Char → Bool) (l : List Char) :
    stripWhile p (stripWhile p l) = stripWhile p l := by
  show (((stripWhile p l).dropWhile p).reverse.dropWhile p).reverse = stripWhile p l
  have h1 : (stripWhile p l).dropWhile p = stripWhile p l := by
    cases hm : stripWhile p l with
    | nil => rfl
    | cons c cs =>
      rw [List.dropWhile_cons, if_neg]
      rw [stripWhile_head hm]
      simp
  rw [h1]
  have hrev : (stripWhile p l).reverse = (l.dropWhile p).reverse.dropWhile p := by
    unfold stripWhile
    rw [List.reverse_reverse]
  have h2 : (stripWhile p l).reverse.dropWhile p = (stripWhile p l).reverse := by
    rw [hrev, dropWhile_idem]
  rw [h2, List.reverse_reverse]

theorem firstOccur_eq_none {pat txt : List Char}
    (h : ∀ j, ¬ occursAt pat txt j) : firstOccur pat txt = none := by
  cases hF : firstOccur pat txt with
  | none => rfl
  | some i => exact absurd (firstOccur_spec hF).1 (h i)

theorem firstListedHit_eq_none :
    ∀ {ms : List (List Char)} {txt : List Char},
      (∀ m ∈ ms, firstOccur m txt = none) → firstListedHit ms txt = none := by
  intro ms
  induction ms with
  | nil => intro txt _; rfl
  | cons m rest ih =>
    intro txt h
    rw [firstListedHit, h m (List.mem_cons_self _ _)]
    exact ih (fun m' hm' => h m' (List.mem_cons_of_mem _ hm'))

/-- The two end-stripping conditions are preserved: stripping `", "`
characters from both ends of a whitespace-canonical list yields a
whitespace-canonical list (the stripped set contains the space). -/
theorem canon_stripComma {y : List Char}
    (hall : allWsSpace y = true) (hnd : noDouble y = true) :
    allWsSpace (pyStripSet ", ".data y) = true ∧
    noDouble (pyStripSet ", ".data y) = true ∧
    headNonWs (pyStripSet ", ".data y) = true ∧
    lastNonWs (pyStripSet ", ".data y) = true := by
  have hmem : ∀ a ∈ pyStripSet ", ".data y, a ∈ y := fun a ha => mem_stripWhile ha
  refine ⟨?_, ?_, ?_, ?_⟩
  · unfold allWsSpace
    rw [List.all_eq_true]
    exact fun a ha => (List.all_eq_true.mp hall) a (hmem a ha)
  · obtain ⟨n, hn⟩ := rev_dropWhile_take (fun c => c ∈ ", ".data) (y.dropWhile _)
    show noDouble (stripWhile _ y) = true
    unfold stripWhile
    rw [hn, dropWhile_eq_drop]
    exact noDouble_take _ (noDouble_drop _ hnd)
  · cases hs : pyStripSet ", ".data y with
    | nil => rfl
    | cons c cs =>
      have hcp : (decide (c ∈ ", ".data)) = false := stripWhile_head hs
      have hcy : c ∈ y := hmem c (hs ▸ List.mem_cons_self _ _)
      have hcnw : isWs c = false := by
        by_contra hws
        have hws' : isWs c = true := by simpa using hws
        have := (List.all_eq_true.mp hall) c hcy
        simp only [hws', Bool.not_true, Bool.false_or, beq_iff_eq] at this
        subst this
        simp at hcp
      simp [headNonWs, hcnw]
  · unfold lastNonWs
    cases hL : (pyStripSet ", ".data y).getLast? with
    | none => rfl
    | some c =>
      have hcp : (decide (c ∈ ", ".data)) = false := stripWhile_last hL
      have hcy : c ∈ y := hmem c (getLast?_mem' hL)
      have hcnw : isWs c = false := by
        by_contra hws
        have hws' : isWs c = true := by simpa using hws
        have := (List.all_eq_true.mp hall) c hcy
        simp only [hws', Bool.not_true, Bool.false_or, beq_iff_eq] at this
        subst this
        simp at hcp
      simp [hcnw]

theorem occursIn_false_no_occursAt {pat l : List Char}
    (h : occursIn pat l = false) : ∀ j, ¬ occursAt pat l j := by
  intro j hocc
  have := occursIn_iff.mpr ⟨j, hocc⟩
  rw [h] at this
  cases this

/-- A string already in `limpiar_frases_basura` output form (stripped,
whitespace-collapsed, uppercase-stable) containing no cut phrase and no
`SIN NUMERO`/`S/N` marker is a fixed point of `limpiar_frases_basura`. -/
theorem limpiar_fixed_point (s : String)
    (hupper : pyUpper s.data = s.data)
    (hc : ∀ mk ∈ cortes, ∀ j, ¬ occursAt mk.data s.data j)
    (hsn1 : ∀ j, ¬ occursAt " SIN NUMERO".data s.data j)
    (hsn2 : ∀ j, ¬ occursAt " S/N".data s.data j)
    (hshape : ∃ z, s.data = pyStripSet ", ".data (collapseWs z)) :
    limpiar_frases_basura s = s := by
  by_cases hs : s = ""
  · rw [hs]
    decide
  · obtain ⟨z, hz⟩ := hshape
    unfold limpiar_frases_basura
    rw [if_neg hs]
    dsimp only
    rw [hupper]
    have hcut : cutAtFirstListed (cortes.map String.data) s.data = s.data := by
      have hfoN : ∀ m ∈ cortes.map String.data, firstOccur m s.data = none := by
        intro m hm
        obtain ⟨mk, hmk, rfl⟩ := List.mem_map.mp hm
        exact firstOccur_eq_none (hc mk hmk)
      rw [cutAtFirstListed_eq, firstListedHit_eq_none hfoN]
    rw [hcut, pyReplace_id_of_no_occur hsn1, pyReplace_id_of_no_occur hsn2]
    have hcanonz := canon_collapseWs z
    have hstrip := canon_stripComma hcanonz.1 hcanonz.2.1
    have hcol : collapseWs s.data = s.data := by
      conv_lhs => rw [hz]
      rw [hz]
      exact collapse_of_canon (pyStripSet ", ".data (collapseWs z)).length _
        (Nat.le_refl _) hstrip.1 hstrip.2.1 hstrip.2.2.1 hstrip.2.2.2
    rw [hcol]
    have hstrip2 : pyStripSet ", ".data s.data = s.data := by
      conv_lhs => rw [hz]
      rw [hz]
      exact stripWhile_idem _ _
    rw [hstrip2]

/-- C7 (amended): normalisation is *not* idempotent in general — a second
pass can re-trigger abbreviation replacement, phrase truncation or
whitespace collapse exposed by the first pass (see the counterexample).
Re-normalising is a no-op exactly on stable outputs: whenever the output of
`limpiar_frases_basura` contains no configured cut phrase and no
`SIN NUMERO`/`S/N` marker, a second application returns it unchanged. -/
theorem claim_C7_idempotence_amended (x : String)
    (hc : ∀ mk ∈ cortes, occursIn mk.data (limpiar_frases_basura x).data = false)
    (hsn1 : occursIn " SIN NUMERO".data (limpiar_frases_basura x).data = false)
    (hsn2 : occursIn " S/N".data (limpiar_frases_basura x).data = false) :
    limpiar_frases_basura (limpiar_frases_basura x) = limpiar_frases_basura x := by
  apply limpiar_fixed_point
  · -- uppercase stability of the first pass's output
    apply map_eq_self_of_stable
    intro c hcm
    by_cases hx : x = ""
    · have hnil : (limpiar_frases_basura "").data = [] := rfl
      rw [hx, hnil] at hcm
      cases hcm
    · have hdef : (limpiar_frases_basura x).data =
          pyStripSet ", ".data (collapseWs (pyReplace " S/N".data []
            (pyReplace " SIN NUMERO".data []
              (cutAtFirstListed (cortes.map String.data) (pyUpper x.data))))) := by
        unfold limpiar_frases_basura
        rw [if_neg hx]
      rw [hdef] at hcm
      have h1 := mem_stripWhile hcm
      rcases mem_collapseWs h1 with h2 | rfl
      · rcases mem_pyReplace h2 with h3 | h3
        · rcases mem_pyReplace h3 with h4 | h4
          · have h5 := mem_cutAtFirstListed h4
            obtain ⟨d, _, rfl⟩ := List.mem_map.mp h5
            exact pyUpperChar_idem d
          · cases h4
        · cases h3
      · decide
  · exact fun mk hmk => occursIn_false_no_occursAt (hc mk hmk)
  · exact occursIn_false_no_occursAt hsn1
  · exact occursIn_false_no_occursAt hsn2
  · by_cases hx : x = ""
    · refine ⟨[], ?_⟩
      rw [hx]
      decide
    · refine ⟨pyReplace " S/N".data []
        (pyReplace " SIN NUMERO".data []
          (cutAtFirstListed (cortes.map String.data) (pyUpper x.data))), ?_⟩
      unfold limpiar_frases_basura
      rw [if_neg hx]

/-- C7 witness: a stable output is a fixed point. -/
theorem claim_C7_idempotence_amended_witness :
    limpiar_frases_basura (limpiar_frases_basura "CALLE HIDALGO 12") =
      limpiar_frases_basura "CALLE HIDALGO 12" :=
  claim_C7_idempotence_amended "CALLE HIDALGO 12" (by decide) (by decide) (by decide)

/-- C7 counterexample: each of the three cited normalisers fails
idempotence.  `limpiar_domicilio` re-expands a `NO.` revealed by the first
replacement; `limpiar_frases_basura` truncates at a phrase exposed by the
`S/N` removal; `strip_accents_keep_enie` re-collapses whitespace exposed by
removing a freestanding combining mark. -/
theorem claim_C7_idempotence_counterexample :
    limpiar_domicilio (limpiar_domicilio "CALLE A NO. NO. 12") ≠
      limpiar_domicilio "CALLE A NO. NO. 12" ∧
    limpiar_frases_basura (limpiar_frases_basura "B A 50 S/N METROS") ≠
      limpiar_frases_basura "B A 50 S/N METROS" ∧
    strip_accents_keep_enie (strip_accents_keep_enie "a ̀ b") ≠
      strip_accents_keep_enie "a ̀ b" := by
  decide

/-! ### C8: diacritic stripping with enie protection -/

theorem flatMap_flatMap' (f g : Char → List Char) :
    ∀ l : List Char, (l.flatMap f).flatMap g = l.flatMap (fun a => (f a).flatMap g) := by
  intro l
  induction l with
  | nil => rfl
  | cons c cs ih =>
    rw [List.flatMap_cons, List.flatMap_append _ _ g, ih, List.flatMap_cons]

theorem flatMap_congr' {f g : Char → List Char} (h : ∀ c, f c = g c) :
    ∀ l : List Char, l.flatMap f = l.flatMap g := by
  intro l
  induction l with
  | nil => rfl
  | cons c cs ih => rw [List.flatMap_cons, List.flatMap_cons, h c, ih]

theorem stage_eq_flatMap (l : List Char) :
    ((pyReplace ['Ñ'] eniePlaceholderMay
        (pyReplace ['ñ'] eniePlaceholderMin l)).flatMap nfdChar).filter
      (fun c => ¬ isMn c) = l.flatMap hChar := by
  rw [pyReplace_single, pyReplace_single, flatMap_flatMap', flatMap_flatMap',
      filter_flatMap']
  refine flatMap_congr' (fun c => ?_) l
  show (((if c = 'ñ' then eniePlaceholderMin else [c]).flatMap
      (fun a => (if a = 'Ñ' then eniePlaceholderMay else [a]).flatMap
        nfdChar)).filter (fun d => ¬ isMn d)) = hChar c
  by_cases h1 : c = 'ñ'
  · subst h1; decide
  by_cases h2 : c = 'Ñ'
  · subst h2; decide
  rw [if_neg h1]
  simp only [List.flatMap_cons, List.flatMap_nil, List.append_nil]
  rw [if_neg h2]
  simp only [List.flatMap_cons, List.flatMap_nil, List.append_nil]
  unfold hChar
  rw [if_neg h1, if_neg h2]

theorem nfd_shape : ∀ p ∈ nfdTable,
    (p.2.filter (fun d => ¬ isMn d)).length = 1 ∧
      ∀ d ∈ p.2.filter (fun d => ¬ isMn d), ¬ d = '_' := by decide

theorem hChar_shape {c : Char} (hc : ¬ c = '_') :
    (c = 'ñ' ∧ hChar c = eniePlaceholderMin) ∨
    (c = 'Ñ' ∧ hChar c = eniePlaceholderMay) ∨
    (∃ d, hChar c = [d] ∧ ¬ d = '_') ∨ hChar c = [] := by
  by_cases h1 : c = 'ñ'
  · exact Or.inl ⟨h1, by unfold hChar; rw [if_pos h1]⟩
  by_cases h2 : c = 'Ñ'
  · exact Or.inr (Or.inl ⟨h2, by unfold hChar; rw [if_neg h1, if_pos h2]⟩)
  refine Or.inr (Or.inr ?_)
  unfold hChar
  rw [if_neg h1, if_neg h2]
  unfold nfdChar
  cases hl : nfdTable.lookup c with
  | none =>
    simp only [Option.getD_none]
    by_cases hm : isMn c = true
    · refine Or.inr ?_
      simp [List.filter_cons, hm]
    · refine Or.inl ⟨c, ?_, hc⟩
      simp [List.filter_cons, hm]
  | some v =>
    have hmem := lookup_mem_assoc hl
    have hsh := nfd_shape _ hmem
    obtain ⟨d, hd⟩ := List.length_eq_one.mp hsh.1
    refine Or.inl ⟨d, ?_, hsh.2 d (by rw [hd]; exact List.mem_singleton.mpr rfl)⟩
    simp only [Option.getD_some]
    exact hd

theorem hChar1_eq_hChar {c : Char} (hc : ¬ c = 'ñ') : hChar1 c = hChar c := by
  unfold hChar1 hChar
  rw [if_neg hc, if_neg hc]

theorem specChar_eq_hChar1 {c : Char} (hc : ¬ c = 'Ñ') : specChar c = hChar1 c := by
  unfold specChar hChar1
  by_cases h1 : c = 'ñ'
  · rw [if_pos h1, if_pos h1]
  · rw [if_neg h1, if_neg h1, if_neg hc, if_neg hc]

theorem hChar1_shape {c : Char} (hc : ¬ c = '_') :
    (c = 'Ñ' ∧ hChar1 c = eniePlaceholderMay) ∨
    (∃ d, hChar1 c = [d] ∧ ¬ d = '_') ∨ hChar1 c = [] := by
  by_cases h1 : c = 'ñ'
  · refine Or.inr (Or.inl ⟨'ñ', ?_, by decide⟩)
    unfold hChar1
    rw [if_pos h1]
  rcases hChar_shape hc with ⟨hcc, _⟩ | ⟨h2, he⟩ | ⟨d, hd, hdn⟩ | hn
  · exact absurd hcc h1
  · exact Or.inl ⟨h2, by rw [hChar1_eq_hChar h1, he]⟩
  · exact Or.inr (Or.inl ⟨d, by rw [hChar1_eq_hChar h1, hd], hdn⟩)
  · exact Or.inr (Or.inr (by rw [hChar1_eq_hChar h1, hn]))

theorem np5 : ∀ {cs : List Char}, (∀ c ∈ cs, ¬ c = '_') →
    startsWith ['_','m','i','n','_','_'] (cs.flatMap hChar) = false := by
  intro cs
  induction cs with
  | nil => intro _; rfl
  | cons c cs ih =>
    intro h
    have hc := h c (List.mem_cons_self c cs)
    have hcs : ∀ d ∈ cs, ¬ d = '_' := fun d hd => h d (List.mem_cons_of_mem c hd)
    rw [List.flatMap_cons]
    rcases hChar_shape hc with ⟨_, he⟩ | ⟨_, he⟩ | ⟨d, he, hdn⟩ | he
    · rw [he]; rfl
    · rw [he]; rfl
    · rw [he]
      show (('_' == d) && _) = false
      rw [beq_eq_false_iff_ne.mpr (fun hh => hdn hh.symm), Bool.false_and]
    · rw [he, List.nil_append]
      exact ih hcs

theorem np4 : ∀ {cs : List Char}, (∀ c ∈ cs, ¬ c = '_') →
    startsWith ['e','_','m','i','n','_','_'] (cs.flatMap hChar) = false := by
  intro cs
  induction cs with
  | nil => intro _; rfl
  | cons c cs ih =>
    intro h
    have hc := h c (List.mem_cons_self c cs)
    have hcs : ∀ d ∈ cs, ¬ d = '_' := fun d hd => h d (List.mem_cons_of_mem c hd)
    rw [List.flatMap_cons]
    rcases hChar_shape hc with ⟨_, he⟩ | ⟨_, he⟩ | ⟨d, he, hdn⟩ | he
    · rw [he]; rfl
    · rw [he]; rfl
    · rw [he]
      by_cases hde : d = 'e'
      · subst hde
        show (('e' == 'e') && startsWith ['_','m','i','n','_','_']
          (cs.flatMap hChar)) = false
        rw [show ('e' == 'e') = true from rfl, Bool.true_and]
        exact np5 hcs
      · show (('e' == d) && _) = false
        rw [beq_eq_false_iff_ne.mpr (fun hh => hde hh.symm), Bool.false_and]
    · rw [he, List.nil_append]
      exact ih hcs

theorem np3 : ∀ {cs : List Char}, (∀ c ∈ cs, ¬ c = '_') →
    startsWith ['i','e','_','m','i','n','_','_'] (cs.flatMap hChar) = false := by
  intro cs
  induction cs with
  | nil => intro _; rfl
  | cons c cs ih =>
    intro h
    have hc := h c (List.mem_cons_self c cs)
    have hcs : ∀ d ∈ cs, ¬ d = '_' := fun d hd => h d (List.mem_cons_of_mem c hd)
    rw [List.flatMap_cons]
    rcases hChar_shape hc with ⟨_, he⟩ | ⟨_, he⟩ | ⟨d, he, hdn⟩ | he
    · rw [he]; rfl
    · rw [he]; rfl
    · rw [he]
      by_cases hde : d = 'i'
      · subst hde
        show (('i' == 'i') && startsWith ['e','_','m','i','n','_','_']
          (cs.flatMap hChar)) = false
        rw [show ('i' == 'i') = true from rfl, Bool.true_and]
        exact np4 hcs
      · show (('i' == d) && _) = false
        rw [beq_eq_false_iff_ne.mpr (fun hh => hde hh.symm), Bool.false_and]
    · rw [he, List.nil_append]
      exact ih hcs

theorem np2 : ∀ {cs : List Char}, (∀ c ∈ cs, ¬ c = '_') →
    startsWith ['n','i','e','_','m','i','n','_','_'] (cs.flatMap hChar) = false := by
  intro cs
  induction cs with
  | nil => intro _; rfl
  | cons c cs ih =>
    intro h
    have hc := h c (List.mem_cons_self c cs)
    have hcs : ∀ d ∈ cs, ¬ d = '_' := fun d hd => h d (List.mem_cons_of_mem c hd)
    rw [List.flatMap_cons]
    rcases hChar_shape hc with ⟨_, he⟩ | ⟨_, he⟩ | ⟨d, he, hdn⟩ | he
    · rw [he]; rfl
    · rw [he]; rfl
    · rw [he]
      by_cases hde : d = 'n'
      · subst hde
        show (('n' == 'n') && startsWith ['i','e','_','m','i','n','_','_']
          (cs.flatMap hChar)) = false
        rw [show ('n' == 'n') = true from rfl, Bool.true_and]
        exact np3 hcs
      · show (('n' == d) && _) = false
        rw [beq_eq_false_iff_ne.mpr (fun hh => hde hh.symm), Bool.false_and]
    · rw [he, List.nil_append]
      exact ih hcs

theorem np1 : ∀ {cs : List Char}, (∀ c ∈ cs, ¬ c = '_') →
    startsWith ['e','n','i','e','_','m','i','n','_','_'] (cs.flatMap hChar) = false := by
  intro cs
  induction cs with
  | nil => intro _; rfl
  | cons c cs ih =>
    intro h
    have hc := h c (List.mem_cons_self c cs)
    have hcs : ∀ d ∈ cs, ¬ d = '_' := fun d hd => h d (List.mem_cons_of_mem c hd)
    rw [List.flatMap_cons]
    rcases hChar_shape hc with ⟨_, he⟩ | ⟨_, he⟩ | ⟨d, he, hdn⟩ | he
    · rw [he]; rfl
    · rw [he]; rfl
    · rw [he]
      by_cases hde : d = 'e'
      · subst hde
        show (('e' == 'e') && startsWith ['n','i','e','_','m','i','n','_','_']
          (cs.flatMap hChar)) = false
        rw [show ('e' == 'e') = true from rfl, Bool.true_and]
        exact np2 hcs
      · show (('e' == d) && _) = false
        rw [beq_eq_false_iff_ne.mpr (fun hh => hde hh.symm), Bool.false_and]
    · rw [he, List.nil_append]
      exact ih hcs

theorem np0 : ∀ {cs : List Char}, (∀ c ∈ cs, ¬ c = '_') →
    startsWith ['_','e','n','i','e','_','m','i','n','_','_'] (cs.flatMap hChar) = false := by
  intro cs
  induction cs with
  | nil => intro _; rfl
  | cons c cs ih =>
    intro h
    have hc := h c (List.mem_cons_self c cs)
    have hcs : ∀ d ∈ cs, ¬ d = '_' := fun d hd => h d (List.mem_cons_of_mem c hd)
    rw [List.flatMap_cons]
    rcases hChar_shape hc with ⟨_, he⟩ | ⟨_, he⟩ | ⟨d, he, hdn⟩ | he
    · rw [he]; rfl
    · rw [he]; rfl
    · rw [he]
      show (('_' == d) && _) = false
      rw [beq_eq_false_iff_ne.mpr (fun hh => hdn hh.symm), Bool.false_and]
    · rw [he, List.nil_append]
      exact ih hcs

theorem peel_may_min {y : List Char}
    (h10 : startsWith ['e','n','i','e','_','m','i','n','_','_'] y = false)
    (h11 : startsWith ['_','e','n','i','e','_','m','i','n','_','_'] y = false) :
    pyReplace eniePlaceholderMin ['ñ'] (eniePlaceholderMay ++ y) =
      eniePlaceholderMay ++ pyReplace eniePlaceholderMin ['ñ'] y := by
  have s0 : startsWith eniePlaceholderMin
      ('_':: '_':: 'e':: 'n':: 'i':: 'e':: '_':: 'm':: 'a':: 'y':: '_':: '_'::y) = false := rfl
  have s1 : startsWith eniePlaceholderMin
      ('_':: 'e':: 'n':: 'i':: 'e':: '_':: 'm':: 'a':: 'y':: '_':: '_'::y) = false := rfl
  have s2 : startsWith eniePlaceholderMin
      ('e':: 'n':: 'i':: 'e':: '_':: 'm':: 'a':: 'y':: '_':: '_'::y) = false := rfl
  have s3 : startsWith eniePlaceholderMin
      ('n':: 'i':: 'e':: '_':: 'm':: 'a':: 'y':: '_':: '_'::y) = false := rfl
  have s4 : startsWith eniePlaceholderMin
      ('i':: 'e':: '_':: 'm':: 'a':: 'y':: '_':: '_'::y) = false := rfl
  have s5 : startsWith eniePlaceholderMin
      ('e':: '_':: 'm':: 'a':: 'y':: '_':: '_'::y) = false := rfl
  have s6 : startsWith eniePlaceholderMin
      ('_':: 'm':: 'a':: 'y':: '_':: '_'::y) = false := rfl
  have s7 : startsWith eniePlaceholderMin
      ('m':: 'a':: 'y':: '_':: '_'::y) = false := rfl
  have s8 : startsWith eniePlaceholderMin
      ('a':: 'y':: '_':: '_'::y) = false := rfl
  have s9 : startsWith eniePlaceholderMin
      ('y':: '_':: '_'::y) = false := rfl
  have s10 : startsWith eniePlaceholderMin ('_':: '_'::y) = false := by
    have he : startsWith eniePlaceholderMin ('_':: '_'::y) =
        startsWith ['e','n','i','e','_','m','i','n','_','_'] y := rfl
    rw [he]
    exact h10
  have s11 : startsWith eniePlaceholderMin ('_'::y) = false := by
    have he : startsWith eniePlaceholderMin ('_'::y) =
        startsWith ['_','e','n','i','e','_','m','i','n','_','_'] y := rfl
    rw [he]
    exact h11
  show pyReplace eniePlaceholderMin ['ñ']
      ('_':: '_':: 'e':: 'n':: 'i':: 'e':: '_':: 'm':: 'a':: 'y':: '_':: '_'::y) =
    eniePlaceholderMay ++ pyReplace eniePlaceholderMin ['ñ'] y
  rw [pyReplace_nomatch_cons s0, pyReplace_nomatch_cons s1, pyReplace_nomatch_cons s2,
      pyReplace_nomatch_cons s3, pyReplace_nomatch_cons s4, pyReplace_nomatch_cons s5,
      pyReplace_nomatch_cons s6, pyReplace_nomatch_cons s7, pyReplace_nomatch_cons s8,
      pyReplace_nomatch_cons s9, pyReplace_nomatch_cons s10, pyReplace_nomatch_cons s11]
  rfl

theorem phase1_restore : ∀ {l : List Char}, (∀ c ∈ l, ¬ c = '_') →
    pyReplace eniePlaceholderMin ['ñ'] (l.flatMap hChar) = l.flatMap hChar1 := by
  intro l
  induction l with
  | nil => intro _; rfl
  | cons c cs ih =>
    intro h
    have hc := h c (List.mem_cons_self c cs)
    have hcs : ∀ d ∈ cs, ¬ d = '_' := fun d hd => h d (List.mem_cons_of_mem c hd)
    rw [List.flatMap_cons, List.flatMap_cons]
    rcases hChar_shape hc with ⟨hcn, he⟩ | ⟨hcn, he⟩ | ⟨d, he, hdn⟩ | he
    · subst hcn
      rw [he, pyReplace_match (by decide) _ _, ih hcs]
      rfl
    · subst hcn
      rw [he, peel_may_min (np1 hcs) (np0 hcs), ih hcs]
      rfl
    · have hcn : ¬ c = 'ñ' := by
        intro hcc
        rw [hcc] at he
        have h2 : eniePlaceholderMin = [d] := he
        have h3 : (12 : Nat) = 1 := congrArg List.length h2
        exact absurd h3 (by decide)
      have h1 : hChar1 c = [d] := by rw [hChar1_eq_hChar hcn, he]
      have hsw : startsWith eniePlaceholderMin (d :: cs.flatMap hChar) = false := by
        show (('_' == d) && _) = false
        rw [beq_eq_false_iff_ne.mpr (fun hh => hdn hh.symm), Bool.false_and]
      rw [he]
      show pyReplace eniePlaceholderMin ['ñ'] (d :: cs.flatMap hChar) = _
      rw [pyReplace_nomatch_cons hsw, ih hcs, h1]
      rfl
    · have hcn : ¬ c = 'ñ' := by
        intro hcc
        rw [hcc] at he
        have h2 : eniePlaceholderMin = ([] : List Char) := he
        have h3 : (12 : Nat) = 0 := congrArg List.length h2
        exact absurd h3 (by decide)
      have h1 : hChar1 c = [] := by rw [hChar1_eq_hChar hcn, he]
      rw [he, List.nil_append, ih hcs, h1, List.nil_append]

theorem phase2_restore : ∀ {l : List Char}, (∀ c ∈ l, ¬ c = '_') →
    pyReplace eniePlaceholderMay ['Ñ'] (l.flatMap hChar1) = l.flatMap specChar := by
  intro l
  induction l with
  | nil => intro _; rfl
  | cons c cs ih =>
    intro h
    have hc := h c (List.mem_cons_self c cs)
    have hcs : ∀ d ∈ cs, ¬ d = '_' := fun d hd => h d (List.mem_cons_of_mem c hd)
    rw [List.flatMap_cons, List.flatMap_cons]
    rcases hChar1_shape hc with ⟨hcn, he⟩ | ⟨d, he, hdn⟩ | he
    · subst hcn
      rw [he, pyReplace_match (by decide) _ _, ih hcs]
      rfl
    · have hcn : ¬ c = 'Ñ' := by
        intro hcc
        rw [hcc] at he
        have h2 : eniePlaceholderMay = [d] := he
        have h3 : (12 : Nat) = 1 := congrArg List.length h2
        exact absurd h3 (by decide)
      have h1 : specChar c = [d] := by rw [specChar_eq_hChar1 hcn, he]
      have hsw : startsWith eniePlaceholderMay (d :: cs.flatMap hChar1) = false := by
        show (('_' == d) && _) = false
        rw [beq_eq_false_iff_ne.mpr (fun hh => hdn hh.symm), Bool.false_and]
      rw [he]
      show pyReplace eniePlaceholderMay ['Ñ'] (d :: cs.flatMap hChar1) = _
      rw [pyReplace_nomatch_cons hsw, ih hcs, h1]
      rfl
    · have hcn : ¬ c = 'Ñ' := by
        intro hcc
        rw [hcc] at he
        have h2 : eniePlaceholderMay = ([] : List Char) := he
        have h3 : (12 : Nat) = 0 := congrArg List.length h2
        exact absurd h3 (by decide)
      have h1 : specChar c = [] := by rw [specChar_eq_hChar1 hcn, he]
      rw [he, List.nil_append, ih hcs, h1, List.nil_append]

theorem strip_accents_flatMap {x : String} (hx : ∀ c ∈ x.data, ¬ c = '_') :
    (strip_accents_keep_enie x).data = (collapseWs x.data).flatMap specChar := by
  by_cases hxe : x = ""
  · subst hxe; rfl
  · have hx₁ : ∀ c ∈ collapseWs x.data, ¬ c = '_' := by
      intro c hcm
      rcases mem_collapseWs hcm with hm | hsp
      · exact hx c hm
      · rw [hsp]; decide
    unfold strip_accents_keep_enie
    rw [if_neg hxe]
    dsimp only
    show pyReplace eniePlaceholderMay ['Ñ']
        (pyReplace eniePlaceholderMin ['ñ']
          (((pyReplace ['Ñ'] eniePlaceholderMay
              (pyReplace ['ñ'] eniePlaceholderMin (collapseWs x.data))).flatMap
                nfdChar).filter (fun c => ¬ isMn c))) =
      (collapseWs x.data).flatMap specChar
    rw [stage_eq_flatMap, phase1_restore hx₁, phase2_restore hx₁]

theorem strip_accents_no_mark (x : String) :
    ∀ c ∈ (strip_accents_keep_enie x).data, isMn c = false := by
  intro c hc
  unfold strip_accents_keep_enie at hc
  by_cases hxe : x = ""
  · rw [if_pos hxe] at hc
    simp at hc
  · rw [if_neg hxe] at hc
    dsimp only at hc
    have hc' : c ∈ pyReplace eniePlaceholderMay ['Ñ']
        (pyReplace eniePlaceholderMin ['ñ']
          (((pyReplace ['Ñ'] eniePlaceholderMay
              (pyReplace ['ñ'] eniePlaceholderMin (collapseWs x.data))).flatMap
                nfdChar).filter (fun c => ¬ isMn c))) := hc
    rcases mem_pyReplace hc' with h1 | h1
    · rcases mem_pyReplace h1 with h2 | h2
      · have h3 := (List.mem_filter.mp h2).2
        simpa using h3
      · simp only [List.mem_singleton] at h2
        subst h2
        decide
    · simp only [List.mem_singleton] at h1
      subst h1
      decide

theorem count_specChar_enie (c : Char) : countc 'ñ' (specChar c) = countc 'ñ' [c] := by
  by_cases h1 : c = 'ñ'
  · subst h1; rfl
  by_cases h2 : c = 'Ñ'
  · subst h2; rfl
  unfold specChar
  rw [if_neg h1, if_neg h2]
  have hbc : ('ñ' == c) = false := beq_eq_false_iff_ne.mpr (fun hh => h1 hh.symm)
  have hcb : (c == 'ñ') = false := beq_eq_false_iff_ne.mpr h1
  have hz : countc 'ñ' [c] = 0 := by simp [countc, List.count_cons, hbc, hcb]
  rw [hz]
  apply List.count_eq_zero_of_not_mem
  intro hmem
  have hmem' : 'ñ' ∈ nfdChar c := List.mem_of_mem_filter hmem
  unfold nfdChar at hmem'
  cases hl : nfdTable.lookup c with
  | none =>
    rw [hl] at hmem'
    simp only [Option.getD_none, List.mem_singleton] at hmem'
    exact h1 hmem'.symm
  | some v =>
    rw [hl] at hmem'
    simp only [Option.getD_some] at hmem'
    have hall : ∀ p ∈ nfdTable, ¬ 'ñ' ∈ p.snd := by decide
    exact hall _ (lookup_mem_assoc hl) hmem'

theorem count_specChar_enieMay (c : Char) : countc 'Ñ' (specChar c) = countc 'Ñ' [c] := by
  by_cases h1 : c = 'ñ'
  · subst h1; rfl
  by_cases h2 : c = 'Ñ'
  · subst h2; rfl
  unfold specChar
  rw [if_neg h1, if_neg h2]
  have hbc : ('Ñ' == c) = false := beq_eq_false_iff_ne.mpr (fun hh => h2 hh.symm)
  have hcb : (c == 'Ñ') = false := beq_eq_false_iff_ne.mpr h2
  have hz : countc 'Ñ' [c] = 0 := by simp [countc, List.count_cons, hbc, hcb]
  rw [hz]
  apply List.count_eq_zero_of_not_mem
  intro hmem
  have hmem' : 'Ñ' ∈ nfdChar c := List.mem_of_mem_filter hmem
  unfold nfdChar at hmem'
  cases hl : nfdTable.lookup c with
  | none =>
    rw [hl] at hmem'
    simp only [Option.getD_none, List.mem_singleton] at hmem'
    exact h2 hmem'.symm
  | some v =>
    rw [hl] at hmem'
    simp only [Option.getD_some] at hmem'
    have hall : ∀ p ∈ nfdTable, ¬ 'Ñ' ∈ p.snd := by decide
    exact hall _ (lookup_mem_assoc hl) hmem'

/-- C8 (corrected): the accent stripper never emits a combining mark, for
any input; and on every input that does not contain the underscore
character (so the placeholder tokens cannot collide with input text), the
number of ñ and of Ñ is preserved exactly.  Unconditional preservation, as
claimed, is false: see the counterexample. -/
theorem claim_C8_strip_accents_amended (x : String) (h : '_' ∉ x.data) :
    (∀ y : String, ∀ c ∈ (strip_accents_keep_enie y).data, isMn c = false) ∧
    countc 'ñ' (strip_accents_keep_enie x).data = countc 'ñ' x.data ∧
    countc 'Ñ' (strip_accents_keep_enie x).data = countc 'Ñ' x.data := by
  have hx : ∀ c ∈ x.data, ¬ c = '_' := fun c hc he => h (he ▸ hc)
  refine ⟨strip_accents_no_mark, ?_, ?_⟩
  · rw [strip_accents_flatMap hx, count_flatMap_pointwise count_specChar_enie,
        count_collapseWs (by decide)]
  · rw [strip_accents_flatMap hx, count_flatMap_pointwise count_specChar_enieMay,
        count_collapseWs (by decide)]

/-- C8 witness: a concrete underscore-free input keeps its ñ and Ñ counts. -/
theorem claim_C8_strip_accents_amended_witness :
    countc 'ñ' (strip_accents_keep_enie "Año del Ñandú").data =
        countc 'ñ' "Año del Ñandú".data ∧
    countc 'Ñ' (strip_accents_keep_enie "Año del Ñandú").data =
        countc 'Ñ' "Año del Ñandú".data :=
  (claim_C8_strip_accents_amended "Año del Ñandú" (by decide)).2

/-- C8 counterexample: an input containing the literal placeholder text
"enie_min__" right after a Ñ makes the restoration fire on a spurious
boundary-crossing occurrence, and the Ñ of the input is destroyed. -/
theorem claim_C8_strip_accents_counterexample :
    strip_accents_keep_enie "Ñenie_min__" = "__enie_mayñ" ∧
    countc 'Ñ' "Ñenie_min__".data = 1 ∧
    countc 'Ñ' (strip_accents_keep_enie "Ñenie_min__").data = 0 := by
  decide

end Geocod
